import Mathlib

/-!
Verification of the AStorage Python client (acapella.kv) against its
natural-language specification.

The Python source is shallowly embedded:

* Python exceptions become the `PyError` inductive; fallible code returns
  `Except PyError _` or pairs a result with an `Option PyError`.
* Python `dict` (insertion-ordered, unique keys) becomes an association
  list `List (κ × β)` with insertion-ordered update helpers `dget` / `dset`.
* `asyncio` coroutines: every operation of `BatchManual` is deterministic
  single-threaded code, so registration (`BatchManual.set` / `cas`) becomes a
  pure state transformer and `BatchManual.send` becomes a function from the
  batch state and a transport oracle to a final state, an optional raised
  error, and a trace of wire events.  The `asyncio.Future` `_future` becomes
  the boolean field `future_resolved`; a suspended `set`/`cas` caller returns
  (observes `entry.new_version`) exactly when that future is resolved.
* The HTTP transport (`AsyncSession.put` / `get`) is an oracle function from
  the request data to a status code and a response body.
* Python `str` is modelled, where its characters matter, as a `List Nat` of
  Unicode code points; `urllib.parse.quote` is embedded down to its UTF-8 /
  percent-encoding arithmetic.
-/

set_option autoImplicit false

namespace AStorage

/-- Python exceptions raised by the client code: the classes of
`acapella.kv.utils.errors` together with the built-in `AssertionError`,
`TimeoutError`, `KeyError` and asyncio's `InvalidStateError`. -/
inductive PyError where
  | assertionError (msg : String)
  | authenticationFailedError
  | timeoutError
  | casError
  | transactionNotFoundError
  | transactionCompletedError
  | kvError (msg : String)
  | keyError
  | invalidStateError
  deriving DecidableEq, Repr

/-- Embedding of `utils/http.py`, `raise_if_error(code)`: maps a transport
status code to either a normal return or a raised error.  Status codes are
`Int` because Python `int` is unbounded and signed. -/
def raise_if_error (code : Int) : Except PyError Unit :=
  if code = 200 then .ok ()
  else if code = 401 then .error (.authenticationFailedError)
  else if code = 408 then .error (.timeoutError)
  else if code = 409 then .error (.casError)
  else if code = 410 then .error (.transactionNotFoundError)
  else if code = 412 then .error (.transactionCompletedError)
  else .error (.kvError ("Unexpected server error with code " ++ toString code))

section Dict

variable {κ : Type} {β : Type} [DecidableEq κ]

/-- Lookup in an insertion-ordered association list, the embedding of reading
a Python `dict` (`d[k]` / `k in d`).  Keys are unique by construction in all
states reachable by the batch operations below. -/
def dget (d : List (κ × β)) (k : κ) : Option β :=
  match d with
  | [] => none
  | (k', v) :: t => if k' = k then some v else dget t k

/-- Write `d[k] = v` on a Python `dict`: updates the value in place when the
key is present (keeping its position) and appends at the end otherwise. -/
def dset (d : List (κ × β)) (k : κ) (v : β) : List (κ × β) :=
  match d with
  | [] => [(k, v)]
  | (k', v') :: t => if k' = k then (k', v) :: t else (k', v') :: dset t k v

/-- Python `dict.setdefault(k, v₀)`: returns the value stored at `k`,
inserting `v₀` first when `k` is absent, together with the updated dict. -/
def dsetdefault (d : List (κ × β)) (k : κ) (v₀ : β) : β × List (κ × β) :=
  match dget d k with
  | some v => (v, d)
  | none => (v₀, d ++ [(k, v₀)])

/-- Key list of a dict, in insertion order (`dict.keys()`). -/
def dkeys (d : List (κ × β)) : List κ := d.map Prod.fst

end Dict

/-! ## BatchManual.py -/

/-- Embedding of `BatchEntry`: one pending write registered in a batch.
The constructor initializes `new_version = 0`; it is overwritten from the
partition response by `apply_response`.  `α` is the value type (Python
values are arbitrary JSON; everything below is parametric in them). -/
structure BatchEntry (α : Type) where
  new_value : Option α
  old_version : Option Int
  new_version : Int
  deriving DecidableEq, Repr

/-- Embedding of `PartitionBatch`: replication parameters plus the dict from
clustering key (a tuple of strings) to `BatchEntry`. -/
structure PartitionBatch (α : Type) where
  n : Int
  r : Int
  w : Int
  batch : List (List String × BatchEntry α)
  deriving DecidableEq, Repr

/-- Embedding of `PartitionBatch.set`: builds the entry, asserts the
clustering key is not registered yet (`__assert_not_set`), then stores it.
On assertion failure nothing is stored. -/
def PartitionBatch.set {α : Type} (pb : PartitionBatch α) (clustering : List String)
    (new_value : Option α) : Except PyError (PartitionBatch α) :=
  if (dget pb.batch clustering).isSome then
    .error (.assertionError ("Key can be added to batch only one time"))
  else
    .ok { pb with batch := pb.batch ++ [(clustering, ⟨new_value, none, 0⟩)] }

/-- Embedding of `PartitionBatch.cas`: like `set` but records the version to
compare against. -/
def PartitionBatch.cas {α : Type} (pb : PartitionBatch α) (clustering : List String)
    (new_value : Option α) (old_version : Int) : Except PyError (PartitionBatch α) :=
  if (dget pb.batch clustering).isSome then
    .error (.assertionError ("Key can be added to batch only one time"))
  else
    .ok { pb with batch := pb.batch ++ [(clustering, ⟨new_value, some old_version, 0⟩)] }

/-- One element of the JSON list built by `PartitionBatch.build_request_body`:
the dict `\x7b'key': k, 'value': e.new_value, 'version': e.old_version\x7d`. -/
structure ReqItem (α : Type) where
  key : List String
  value : Option α
  version : Option Int
  deriving DecidableEq, Repr

/-- One element of a partition response body, as read by `apply_response`
(`item['key']` and `item['version']`). -/
structure RespItem where
  key : List String
  version : Int
  deriving DecidableEq, Repr

/-- Embedding of `PartitionBatch.build_request_body`: one request item per
pending entry, in dict (= registration) order. -/
def PartitionBatch.build_request_body {α : Type} (pb : PartitionBatch α) : List (ReqItem α) :=
  pb.batch.map (fun ke => ⟨ke.1, ke.2.new_value, ke.2.old_version⟩)

/-- Inner loop of `apply_response`: `self.batch[key].new_version = version`
for each response item, in order.  A response key absent from the batch is a
Python `KeyError`; updates made before the failing item persist, as they do
on the mutable dict. -/
def applyItems {α : Type} (b : List (List String × BatchEntry α)) :
    List RespItem → List (List String × BatchEntry α) × Option PyError
  | [] => (b, none)
  | item :: rest =>
    match dget b item.key with
    | none => (b, some (.keyError))
    | some e => applyItems (dset b item.key { e with new_version := item.version }) rest

/-- Embedding of `PartitionBatch.apply_response`: asserts the response has as
many items as the batch, then writes each returned version into the matching
entry. -/
def PartitionBatch.apply_response {α : Type} (pb : PartitionBatch α) (body : List RespItem) :
    PartitionBatch α × Option PyError :=
  if body.length ≠ pb.batch.length then
    (pb, some (.assertionError ("")))
  else
    let (b', err) := applyItems pb.batch body
    ({ pb with batch := b' }, err)

/-- Embedding of the mutable state of a `BatchManual` object:
`_in_process` (initially `true`), whether `_future` has been resolved by
`set_result` (initially `false`), and the dict from partition key to
`PartitionBatch`.  The `_session` field is passed separately to `send` as the
transport oracle. -/
structure BatchState (α : Type) where
  in_process : Bool
  future_resolved : Bool
  batch : List (List String × PartitionBatch α)
  deriving DecidableEq, Repr

/-- State of a freshly constructed `BatchManual`. -/
def BatchState.init (α : Type) : BatchState α := ⟨true, false, []⟩

/-- Embedding of `BatchManual._assert_in_process` followed by the
registration part of `BatchManual.set` (everything before `await
self._future`): looks up or creates the partition's `PartitionBatch` with
`setdefault` and registers the entry under the clustering key.  The function
performs no transport call — none appears in the source until `send`.  The
suspended caller's eventual return value is `new_version` of the entry at
`(partition, clustering)`, read from the state once `future_resolved` holds
(see `callerVersion`). -/
def bmSet {α : Type} (st : BatchState α) (partition clustering : List String)
    (new_value : Option α) (n r w : Int) : BatchState α × Option PyError :=
  if st.in_process = false then
    (st, some (.assertionError ("Batch can be used only one time")))
  else
    let (pb, batch₁) := dsetdefault st.batch partition ⟨n, r, w, []⟩
    match pb.set clustering new_value with
    | .error e => ({ st with batch := batch₁ }, some e)
    | .ok pb' => ({ st with batch := dset batch₁ partition pb' }, none)

/-- Embedding of the registration part of `BatchManual.cas`; see `bmSet`. -/
def bmCas {α : Type} (st : BatchState α) (partition clustering : List String)
    (new_value : Option α) (old_version : Int) (n r w : Int) :
    BatchState α × Option PyError :=
  if st.in_process = false then
    (st, some (.assertionError ("Batch can be used only one time")))
  else
    let (pb, batch₁) := dsetdefault st.batch partition ⟨n, r, w, []⟩
    match pb.cas clustering new_value old_version with
    | .error e => ({ st with batch := batch₁ }, some e)
    | .ok pb' => ({ st with batch := dset batch₁ partition pb' }, none)

/-- Wire events of one `send`: `start` is the moment `_send_partition` hands
its PUT request to the transport (with the url, query parameters and JSON
body actually passed to `session.put`), `finish` the moment the transport's
response for that partition arrives.  Events are tagged with the partition
key for bookkeeping. -/
inductive Ev (α : Type) where
  | start (partition : List String) (url : String) (n r w : Int) (body : List (ReqItem α))
  | finish (partition : List String) (code : Int) (respBody : List RespItem)
  deriving DecidableEq, Repr

/-- Transport oracle for the batch PUT: from url, query parameters and
request body to the response's status code and JSON body.  Deterministic,
which loses nothing: each `send` calls it once per distinct url. -/
def Transport (α : Type) : Type :=
  String → Int → Int → Int → List (ReqItem α) → Int × List RespItem

/-- Embedding of the result of awaiting `BatchManual._send_partition` for one
partition: the partition batch after the call (with versions applied on
success, partially applied on a `KeyError`), the raised error if any, and
the two wire events.  Mirrors the source: build the url, PUT the request
body, `raise_if_error` on the status code, then `apply_response`. -/
def sendPartitionUrl {α : Type} (url : String) (tr : Transport α)
    (partition : List String) (pb : PartitionBatch α) :
    PartitionBatch α × Option PyError × List (Ev α) :=
  let (code, respBody) := tr url pb.n pb.r pb.w pb.build_request_body
  let evs := [Ev.start partition url pb.n pb.r pb.w pb.build_request_body,
              Ev.finish partition code respBody]
  match raise_if_error code with
  | .error e => (pb, some e, evs)
  | .ok _ =>
    let (pb', err) := pb.apply_response respBody
    (pb', err, evs)

/-! ## utils/http.py: `key_to_str`, `entry_url`

Python `str` is modelled as `List Nat` of Unicode code points.
`urllib.parse.quote(part)` with its default arguments UTF-8-encodes the
string and percent-escapes every byte that is not an ASCII letter, digit,
one of `_.-~`, or the default-safe `/`, using uppercase hex digits. -/

/-- Characters `urllib.parse.quote` leaves unescaped under its defaults:
ASCII alphanumerics, `_`, `.`, `-`, `~` (always safe) and `/` (the default
`safe` parameter). -/
def isSafe (c : Nat) : Prop :=
  (48 ≤ c ∧ c ≤ 57) ∨ (65 ≤ c ∧ c ≤ 90) ∨ (97 ≤ c ∧ c ≤ 122) ∨
    c = 95 ∨ c = 46 ∨ c = 45 ∨ c = 126 ∨ c = 47

instance (c : Nat) : Decidable (isSafe c) := by
  unfold isSafe
  infer_instance

/-- Uppercase hexadecimal digit, as Python's `quote` emits (`%XY`). -/
def hexDig (n : Nat) : Nat := if n < 10 then 48 + n else 55 + n

/-- Percent-escape of one byte: `%` followed by two uppercase hex digits. -/
def pct (b : Nat) : List Nat := [37, hexDig (b / 16), hexDig (b % 16)]

/-- UTF-8 encoding of one code point (CPython's `str.encode('utf-8')`
byte layout). -/
def utf8 (c : Nat) : List Nat :=
  if c < 128 then [c]
  else if c < 2048 then [192 + c / 64, 128 + c % 64]
  else if c < 65536 then [224 + c / 4096, 128 + (c / 64) % 64, 128 + c % 64]
  else [240 + c / 262144, 128 + (c / 4096) % 64, 128 + (c / 64) % 64, 128 + c % 64]

/-- Contribution of one character to `quote(part)`: safe characters pass
through, everything else is percent-escaped byte by byte. -/
def quoteChar (c : Nat) : List Nat :=
  if isSafe c then [c] else (utf8 c).flatMap pct

/-- Embedding of `urllib.parse.quote(part)` with default arguments. -/
def quote (s : List Nat) : List Nat := s.flatMap quoteChar

/-- Python `':'.join(parts)` (the code point of `:` is 58). -/
def joinColon : List (List Nat) → List Nat
  | [] => []
  | [x] => x
  | x :: xs => x ++ 58 :: joinColon xs

/-- Embedding of `key_to_str(key)`: `':'.join(quote(part) for part in key)`. -/
def key_to_str (key : List (List Nat)) : List Nat :=
  joinColon (key.map quote)

/-- Code points that make up a `Char` that Python can UTF-8-encode: a valid
scalar value below `0x110000` outside the surrogate range (on surrogates,
`quote` raises instead of encoding). -/
def ValidChar (c : Nat) : Prop := c < 1114112 ∧ ¬(55296 ≤ c ∧ c ≤ 57343)

/-- A string every character of which is encodable. -/
def ValidStr (s : List Nat) : Prop := ∀ c ∈ s, ValidChar c

instance (c : Nat) : Decidable (ValidChar c) := by
  unfold ValidChar
  infer_instance

instance (s : List Nat) : Decidable (ValidStr s) := by
  unfold ValidStr
  exact List.decidableBAll _ s

/-- Bridge from Lean `String` to the code-point model. -/
def strCodes (s : String) : List Nat := s.data.map Char.toNat

/-- Bridge back: build a `String` from code points (all outputs of `quote`
are ASCII, so this is exact). -/
def codesStr (l : List Nat) : String := String.mk (l.map Char.ofNat)

/-- `key_to_str` at `String` level, used to build urls. -/
def keyToStrS (key : List String) : String :=
  codesStr (key_to_str (key.map strCodes))

/-- Embedding of `entry_url(partition, clustering)` from `utils/http.py`. -/
def entry_url (partition : List String) (clustering : Option (List String)) : String :=
  match clustering with
  | none => "/astorage/v2/kv/keys/" ++ keyToStrS partition
  | some c =>
    if c.length = 0 then "/astorage/v2/kv/keys/" ++ keyToStrS partition
    else "/astorage/v2/kv/partition/" ++ keyToStrS partition ++ "/clustering/" ++ keyToStrS c

/-! ## BatchManual.send -/

/-- Url of the batch PUT for one partition, from `_send_partition`:
`f'/v2/kv/partition/...'` interpolating `key_to_str(partition)`. -/
def partitionPutUrl (partition : List String) : String :=
  "/v2/kv/partition/" ++ keyToStrS partition

/-- Embedding of `BatchManual._send_partition`. -/
def sendPartition {α : Type} (tr : Transport α) (partition : List String)
    (pb : PartitionBatch α) : PartitionBatch α × Option PyError × List (Ev α) :=
  sendPartitionUrl (partitionPutUrl partition) tr partition pb

/-- The awaiting loop of `BatchManual.send`: the `for` over `items()` builds
one `_send_partition` coroutine per partition, and the second `for` awaits
them one at a time, running each only then.  The first raised error
propagates out of `send`; coroutines after it are never awaited, hence never
executed — their partitions see no wire call at all. -/
def sendLoop {α : Type} (tr : Transport α) :
    List (List String × PartitionBatch α) →
    List (List String × PartitionBatch α) × Option PyError × List (Ev α)
  | [] => ([], none, [])
  | (p, pb) :: rest =>
    match sendPartition tr p pb with
    | (pb', some e, evs) => ((p, pb') :: rest, some e, evs)
    | (pb', none, evs) =>
      let (rest', err, evs') := sendLoop tr rest
      ((p, pb') :: rest', err, evs ++ evs')

/-- Embedding of `BatchManual.send`.  The initial `asyncio.sleep(0)` on an
empty batch only yields to the scheduler and has no observable effect in
this single-caller model.  `_in_process` is cleared before any wire call;
`self._future.set_result(None)` runs only when every partition call
returned, and raises `InvalidStateError` if the future is already resolved
(that is, if `send` completed once before). -/
def send {α : Type} (tr : Transport α) (st : BatchState α) :
    BatchState α × Option PyError × List (Ev α) :=
  let st₁ : BatchState α := { st with in_process := false }
  let (batch', err, evs) := sendLoop tr st₁.batch
  let st₂ : BatchState α := { st₁ with batch := batch' }
  match err with
  | some e => (st₂, some e, evs)
  | none =>
    if st₂.future_resolved then (st₂, some (.invalidStateError), evs)
    else ({ st₂ with future_resolved := true }, none, evs)

/-- Return value observed by the suspended `set`/`cas` caller that registered
`(partition, clustering)`: the caller is parked on `await self._future` and
returns `entry.new_version` of its own `BatchEntry`; it observes a value
exactly when the shared future has been resolved. -/
def callerVersion {α : Type} (st : BatchState α) (partition clustering : List String) :
    Option Int :=
  if st.future_resolved then
    (dget st.batch partition).bind fun pb =>
      (dget pb.batch clustering).map fun e => e.new_version
  else none

/-- One registration request: which entry operation was started against the
batch, with its key and replication parameters. -/
inductive RegOp (α : Type) where
  | set (new_value : Option α)
  | cas (new_value : Option α) (old_version : Int)
  deriving DecidableEq, Repr

/-- A `set`/`cas` call registered on the batch. -/
structure Reg (α : Type) where
  partition : List String
  clustering : List String
  op : RegOp α
  n : Int
  r : Int
  w : Int
  deriving DecidableEq, Repr

/-- The value a registration writes. -/
def Reg.value {α : Type} (reg : Reg α) : Option α :=
  match reg.op with
  | .set v => v
  | .cas v _ => v

/-- The comparison version a registration carries: `None` for `set`, the
given `old_version` for `cas` — exactly the `version` field the request body
will hold. -/
def Reg.oldVersion {α : Type} (reg : Reg α) : Option Int :=
  match reg.op with
  | .set _ => none
  | .cas _ ov => some ov

/-- Run one registration against the batch state. -/
def applyReg {α : Type} (st : BatchState α) (reg : Reg α) : BatchState α × Option PyError :=
  match reg.op with
  | .set v => bmSet st reg.partition reg.clustering v reg.n reg.r reg.w
  | .cas v ov => bmCas st reg.partition reg.clustering v ov reg.n reg.r reg.w

/-- Run a sequence of registrations (the suspended callers, in program
order), stopping at the first assertion failure. -/
def registerAll {α : Type} (st : BatchState α) :
    List (Reg α) → BatchState α × Option PyError
  | [] => (st, none)
  | reg :: rest =>
    match applyReg st reg with
    | (st', none) => registerAll st' rest
    | (st', some e) => (st', some e)

/-! ## Entry.py -/

/-- Embedding of the fields of an `Entry` object (set in `__init__` after the
`check_key` / `check_nrw` validation; construction with validation is
`mkEntry` below). -/
structure Entry (α : Type) where
  partition : List String
  clustering : List String
  version : Int
  value : Option α
  n : Int
  r : Int
  w : Int
  transaction : Option Int
  deriving DecidableEq, Repr

/-- The HTTP request an `Entry` operation performs: the method's url, the
query parameters the source places in `params` (absent ones `none`), and the
JSON body for PUT (`none` for GET).  Timeouts are passed in seconds. -/
structure EntryRequest (α : Type) where
  url : String
  n : Int
  r : Int
  w : Int
  transaction : Option Int
  oldVersion : Option Int
  waitVersion : Option Int
  waitTimeout : Option Int
  json : Option (Option α)
  deriving DecidableEq, Repr

/-- Response body of an entry GET/PUT as the source reads it:
`int(body['version'])` and `body.get('value')`. -/
structure EntryResp (α : Type) where
  version : Int
  value : Option α
  deriving DecidableEq, Repr

/-- Transport oracle for entry operations. -/
def EntryTransport (α : Type) : Type := EntryRequest α → Int × EntryResp α

/-- Request built by `Entry.get`. -/
def getRequest {α : Type} (e : Entry α) : EntryRequest α :=
  ⟨entry_url e.partition (some e.clustering), e.n, e.r, e.w, e.transaction,
    none, none, none, none⟩

/-- Embedding of `Entry.get`: issue the GET, `raise_if_error`, then overwrite
the cached version and value from the body and return the value.  On a
raised error the object is returned unchanged (nothing was assigned yet). -/
def Entry.get {α : Type} (e : Entry α) (tr : EntryTransport α) :
    Entry α × Option PyError × Option (Option α) :=
  let (code, body) := tr (getRequest e)
  match raise_if_error code with
  | .error err => (e, some err, none)
  | .ok _ => ({ e with version := body.version, value := body.value }, none, some body.value)

/-- Request built by `Entry.listen`: `wait_version` defaults to the cached
version; the timeout is forwarded in seconds when given. -/
def listenRequest {α : Type} (e : Entry α) (wait_version : Option Int)
    (timeout_seconds : Option Int) : EntryRequest α :=
  ⟨entry_url e.partition (some e.clustering), e.n, e.r, e.w, e.transaction,
    none, some (wait_version.getD e.version), timeout_seconds, none⟩

/-- Embedding of `Entry.listen`: like `get` with the wait parameters. -/
def Entry.listen {α : Type} (e : Entry α) (wait_version : Option Int)
    (timeout_seconds : Option Int) (tr : EntryTransport α) :
    Entry α × Option PyError × Option (Option α) :=
  let (code, body) := tr (listenRequest e wait_version timeout_seconds)
  match raise_if_error code with
  | .error err => (e, some err, none)
  | .ok _ => ({ e with version := body.version, value := body.value }, none, some body.value)

/-- Request built by the direct (batch-less) branch of `Entry.set`. -/
def setRequest {α : Type} (e : Entry α) (new_value : Option α) : EntryRequest α :=
  ⟨entry_url e.partition (some e.clustering), e.n, e.r, e.w, e.transaction,
    none, none, none, some new_value⟩

/-- Embedding of `Entry.set` with `batch=None`: PUT the value,
`raise_if_error`, then cache `body['version']` and `new_value` and return the
new version. -/
def Entry.set {α : Type} (e : Entry α) (new_value : Option α) (tr : EntryTransport α) :
    Entry α × Option PyError × Option Int :=
  let (code, body) := tr (setRequest e new_value)
  match raise_if_error code with
  | .error err => (e, some err, none)
  | .ok _ => ({ e with version := body.version, value := new_value }, none, some body.version)

/-- Embedding of the `batch is not None` branch of `Entry.set`: the write is
registered with the batch and the caller suspends; once the batch assigns
`version` the entry caches it together with `new_value` and returns it. -/
def Entry.setBatched {α : Type} (e : Entry α) (new_value : Option α) (version : Int) :
    Entry α × Int :=
  ({ e with version := version, value := new_value }, version)

/-- Request built by the direct branch of `Entry.cas`: `old_version`
defaults to the cached version and is sent as the `oldVersion` parameter. -/
def casRequest {α : Type} (e : Entry α) (new_value : Option α)
    (old_version : Option Int) : EntryRequest α :=
  ⟨entry_url e.partition (some e.clustering), e.n, e.r, e.w, e.transaction,
    some (old_version.getD e.version), none, none, some new_value⟩

/-- Embedding of `Entry.cas` with `batch=None`. -/
def Entry.cas {α : Type} (e : Entry α) (new_value : Option α)
    (old_version : Option Int) (tr : EntryTransport α) :
    Entry α × Option PyError × Option Int :=
  let (code, body) := tr (casRequest e new_value old_version)
  match raise_if_error code with
  | .error err => (e, some err, none)
  | .ok _ => ({ e with version := body.version, value := new_value }, none, some body.version)

/-- Embedding of the `batch is not None` branch of `Entry.cas` (identical
caching behavior to the batched `set`; the defaulted `old_version` was
already passed to the batch at registration). -/
def Entry.casBatched {α : Type} (e : Entry α) (new_value : Option α) (version : Int) :
    Entry α × Int :=
  ({ e with version := version, value := new_value }, version)

/-! ## PartitionIndex.py -/

/-- Modelled from the spec: `check_key` from the missing
`utils/assertion.py`.  Section 7 of the spec: "ValidationError (malformed
key, ...) — raised locally before any transport call"; section 3: the
partition key is a non-empty sequence of string components.  The model
rejects exactly the empty key. -/
def check_key (key : List String) : Except PyError Unit :=
  if key = [] then .error (.assertionError ("malformed key")) else .ok ()

/-- Modelled from the spec: `check_nrw` from the missing
`utils/assertion.py`.  Section 3 of the spec: replication parameters are
"positive integers with w,r ≤ n". -/
def check_nrw (n r w : Int) : Except PyError Unit :=
  if 0 < n ∧ 0 < r ∧ 0 < w ∧ r ≤ n ∧ w ≤ n then .ok ()
  else .error (.assertionError ("invalid replication parameters"))

/-- Embedding of `Entry.__init__`: validates the partition key and the
replication parameters, then stores the fields. -/
def mkEntry {α : Type} (partition clustering : List String) (version : Int)
    (value : Option α) (n r w : Int) (transaction : Option Int) :
    Except PyError (Entry α) :=
  match check_key partition with
  | .error e => .error e
  | .ok _ =>
    match check_nrw n r w with
    | .error e => .error e
    | .ok _ => .ok ⟨partition, clustering, version, value, n, r, w, transaction⟩

/-- One element of an index-query response body, as `PartitionIndex.query`
reads it: `e['key']` and `e.get('value')`. -/
structure IndexItem (α : Type) where
  key : List String
  value : Option α
  deriving DecidableEq, Repr

/-- The list comprehension of `PartitionIndex.query`: left to right, one
`Entry` per response element, the first raised error aborting the whole
construction. -/
def buildEntries {α : Type} (partition : List String) :
    List (IndexItem α) → Except PyError (List (Entry α))
  | [] => .ok []
  | e :: rest =>
    match mkEntry partition e.key 0 e.value 3 2 2 none with
    | .error err => .error err
    | .ok ent =>
      match buildEntries partition rest with
      | .error err => .error err
      | .ok tail => .ok (ent :: tail)

/-- Embedding of `PartitionIndex.query` from the GET response on: check the
status code, then build one `Entry` per response element with version `0`,
the index's partition, the element's key as clustering key, the element's
value, replication parameters `3, 2, 2` and no transaction. -/
def indexQuery {α : Type} (partition : List String) (code : Int)
    (data : List (IndexItem α)) : Except PyError (List (Entry α)) :=
  match raise_if_error code with
  | .error e => .error e
  | .ok _ => buildEntries partition data

/-! ## Derived observation helpers and concrete scenarios -/

/-- The pending entry registered for `(partition, clustering)`, if any. -/
def lookup2 {α : Type} (st : BatchState α) (partition clustering : List String) :
    Option (BatchEntry α) :=
  (dget st.batch partition).bind fun pb => dget pb.batch clustering

/-- Whether an event is the issuing of the PUT for `partition`. -/
def Ev.isStartOf {α : Type} (ev : Ev α) (partition : List String) : Bool :=
  match ev with
  | .start q _ _ _ _ _ => decide (q = partition)
  | _ => false

/-- Whether an event is the completion of the PUT for `partition`. -/
def Ev.isFinishOf {α : Type} (ev : Ev α) (partition : List String) : Bool :=
  match ev with
  | .finish q _ _ => decide (q = partition)
  | _ => false

/-- Position in the trace at which the PUT for `partition` was issued. -/
def startIdx {α : Type} (t : List (Ev α)) (partition : List String) : Option Nat :=
  t.findIdx? (fun ev => ev.isStartOf partition)

/-- Position in the trace at which the PUT for `partition` completed. -/
def finishIdx {α : Type} (t : List (Ev α)) (partition : List String) : Option Nat :=
  t.findIdx? (fun ev => ev.isFinishOf partition)

/-- `issuedBefore t p q` holds when the PUT for `p` was handed to the
transport strictly before the PUT for `q` completed.  Two calls ran
concurrently exactly when each was issued before the other completed. -/
def issuedBefore {α : Type} (t : List (Ev α)) (p q : List String) : Bool :=
  match startIdx t p, finishIdx t q with
  | some i, some j => decide (i < j)
  | _, _ => false

/-- A trace is strictly sequential when it is a chain of
issue-then-complete pairs, each PUT completing before the next is issued. -/
def seqTrace {α : Type} : List (Ev α) → Bool
  | [] => true
  | Ev.start p _ _ _ _ _ :: Ev.finish q _ _ :: rest => decide (p = q) && seqTrace rest
  | _ => false

/-- Response of a well-behaved partition server: status 200 and one
`(key, version)` item per request item, versions given by the oracle `g`. -/
def echoResp {α : Type} (g : List String → Int) (body : List (ReqItem α)) : List RespItem :=
  body.map fun it => ⟨it.key, g it.key⟩

/-- A partition batch after a successful response assigned version `g key`
to every pending key. -/
def pbApplyVersions {α : Type} (g : List String → Int) (pb : PartitionBatch α) :
    PartitionBatch α :=
  { pb with batch := pb.batch.map fun ce => (ce.1, { ce.2 with new_version := g ce.1 }) }

/-- Concrete scenario: one `set` on partition `p1` (clustering key `a`,
value `1`) and one on partition `p2` (clustering key `b`, value `2`),
registered on a fresh batch. -/
def exRegs : List (Reg Nat) :=
  [⟨["p1"], ["a"], .set (some 1), 3, 2, 2⟩, ⟨["p2"], ["b"], .set (some 2), 3, 2, 2⟩]

/-- The batch state after the two example registrations. -/
def exState : BatchState Nat := (registerAll (BatchState.init Nat) exRegs).1

/-- Transport for which partition `p1` answers 200 with version 7 for every
key, while every other partition (in particular `p2`) fails with status 500. -/
def exTransportFail : Transport Nat := fun url _ _ _ body =>
  if url = partitionPutUrl ["p1"] then (200, body.map fun it => ⟨it.key, 7⟩)
  else (500, [])

/-- Transport for which every partition answers 200 with version 5 for
every key. -/
def exTransportOk : Transport Nat := fun _ _ _ _ body =>
  (200, body.map fun it => ⟨it.key, 5⟩)

/-- Concrete entry bound to partition `p` / clustering `c` with fresh
version 0 and default replication parameters, outside any transaction. -/
def exEntry : Entry Nat := ⟨["p"], ["c"], 0, none, 3, 2, 2, none⟩

/-- Entry transport answering 200 with version 9 and value 4 to
every request. -/
def exETransportOk : EntryTransport Nat := fun _ => (200, ⟨9, some 4⟩)

/-- Entry transport failing every request with status 500. -/
def exETransportFail : EntryTransport Nat := fun _ => (500, ⟨0, none⟩)

/-! ## Decoders for the injectivity of `quote` / `key_to_str`

These are verification artifacts, not part of the source: a percent-decoder
and a UTF-8 decoder that recover the input of `quote`, establishing its
injectivity. -/

/-- UTF-8 encoding of a whole string of code points. -/
def utf8encode (s : List Nat) : List Nat := s.flatMap utf8

/-- Value of an uppercase hexadecimal digit. -/
def unhex (d : Nat) : Option Nat :=
  if 48 ≤ d ∧ d ≤ 57 then some (d - 48)
  else if 65 ≤ d ∧ d ≤ 70 then some (d - 55)
  else none

mutual

/-- Percent-decoder: recovers the UTF-8 byte string from `quote`'s output. -/
def ubytes : List Nat → Option (List Nat)
  | [] => some []
  | c :: rest =>
    if c = 37 then ubytesPct rest
    else if isSafe c then (ubytes rest).map (fun t => c :: t)
    else none
termination_by l => 2 * l.length

/-- Decoding of the two hex digits following a `%`. -/
def ubytesPct : List Nat → Option (List Nat)
  | h :: l :: rest₂ =>
    match unhex h, unhex l with
    | some a, some b => (ubytes rest₂).map (fun t => (a * 16 + b) :: t)
    | _, _ => none
  | _ => none
termination_by l => 2 * l.length + 1

end

mutual

/-- UTF-8 decoder: recovers the code points from a UTF-8 byte string.
Split into one helper per encoded length so that Lean generates usable
equation lemmas. -/
def udecode : List Nat → Option (List Nat)
  | [] => some []
  | b :: rest =>
    if b < 128 then (udecode rest).map (fun t => b :: t)
    else if b < 192 then none
    else if b < 224 then udecodeTail2 b rest
    else if b < 240 then udecodeTail3 b rest
    else udecodeTail4 b rest
termination_by l => 2 * l.length

/-- Decoding of the continuation of a two-byte UTF-8 sequence. -/
def udecodeTail2 : Nat → List Nat → Option (List Nat)
  | b, b₂ :: rest₂ =>
    if 128 ≤ b₂ ∧ b₂ < 192 then
      (udecode rest₂).map (fun t => ((b - 192) * 64 + (b₂ - 128)) :: t)
    else none
  | _, _ => none
termination_by _ l => 2 * l.length + 1

/-- Decoding of the continuation of a three-byte UTF-8 sequence. -/
def udecodeTail3 : Nat → List Nat → Option (List Nat)
  | b, b₂ :: b₃ :: rest₂ =>
    if (128 ≤ b₂ ∧ b₂ < 192) ∧ (128 ≤ b₃ ∧ b₃ < 192) then
      (udecode rest₂).map
        (fun t => ((b - 224) * 4096 + (b₂ - 128) * 64 + (b₃ - 128)) :: t)
    else none
  | _, _ => none
termination_by _ l => 2 * l.length + 1

/-- Decoding of the continuation of a four-byte UTF-8 sequence. -/
def udecodeTail4 : Nat → List Nat → Option (List Nat)
  | b, b₂ :: b₃ :: b₄ :: rest₂ =>
    if (128 ≤ b₂ ∧ b₂ < 192) ∧ (128 ≤ b₃ ∧ b₃ < 192) ∧ (128 ≤ b₄ ∧ b₄ < 192) then
      (udecode rest₂).map
        (fun t =>
          ((b - 240) * 262144 + (b₂ - 128) * 4096 + (b₃ - 128) * 64 + (b₄ - 128)) :: t)
    else none
  | _, _ => none
termination_by _ l => 2 * l.length + 1

end


/-! ## Dict lemmas -/

section DictLemmas

variable {κ : Type} {β : Type} [DecidableEq κ]

theorem dget_dset (d : List (κ × β)) (k k' : κ) (v : β) :
    dget (dset d k v) k' = if k = k' then some v else dget d k' := by
  induction d with
  | nil => simp [dget, dset]
  | cons hd t ih =>
    obtain ⟨a, b⟩ := hd
    by_cases hak : a = k
    · subst hak
      by_cases hk' : a = k'
      · simp [dget, dset, hk']
      · simp [dget, dset, hk', fun h : a = k' => hk' h]
    · by_cases hk' : a = k'
      · have hkk' : ¬ k = k' := fun hkk => hak (hk'.trans hkk.symm)
        have hk'k : ¬ k' = k := fun h => hkk' h.symm
        simp [dget, dset, hak, hk', hkk', hk'k]
      · simp [dget, dset, hak, hk', ih]

theorem dget_append (l m : List (κ × β)) (k : κ) :
    dget (l ++ m) k = if (dget l k).isSome then dget l k else dget m k := by
  induction l with
  | nil => simp [dget]
  | cons hd t ih =>
    obtain ⟨a, b⟩ := hd
    by_cases hak : a = k
    · simp [dget, hak]
    · simp [dget, hak, ih]

theorem dkeys_dset (d : List (κ × β)) (k : κ) (v : β) :
    dkeys (dset d k v) = if (dget d k).isSome then dkeys d else dkeys d ++ [k] := by
  induction d with
  | nil => simp [dget, dset, dkeys]
  | cons hd t ih =>
    obtain ⟨a, b⟩ := hd
    by_cases hak : a = k
    · simp [dget, dset, dkeys, hak]
    · by_cases hs : (dget t k).isSome
      · simp [dget, dset, dkeys, hak, hs] at ih ⊢
        exact ih
      · simp [dget, dset, dkeys, hak, hs] at ih ⊢
        exact ih

theorem dkeys_cons {κ₀ β₀ : Type} (a : κ₀) (b : β₀) (t : List (κ₀ × β₀)) :
    dkeys ((a, b) :: t) = a :: dkeys t := rfl

theorem dget_isSome_iff_mem_dkeys (d : List (κ × β)) (k : κ) :
    (dget d k).isSome ↔ k ∈ dkeys d := by
  induction d with
  | nil => simp [dget, dkeys]
  | cons hd t ih =>
    obtain ⟨a, b⟩ := hd
    by_cases hak : a = k
    · simp [dget, dkeys_cons, hak]
    · have hka : ¬ k = a := fun h => hak h.symm
      simp [dget, dkeys_cons, hak, hka, ih]

theorem dget_mem (d : List (κ × β)) (k : κ) (v : β) (h : dget d k = some v) : (k, v) ∈ d := by
  induction d with
  | nil => simp [dget] at h
  | cons hd t ih =>
    obtain ⟨a, b⟩ := hd
    by_cases hak : a = k
    · subst hak
      simp [dget] at h
      simp [h]
    · rw [dget, if_neg hak] at h
      exact List.mem_cons_of_mem _ (ih h)

end DictLemmas

theorem dkeys_append {κ β : Type} (l m : List (κ × β)) :
    dkeys (l ++ m) = dkeys l ++ dkeys m := by
  simp [dkeys]

/-! ## C5: status-code mapping -/

/-- C5.  `raise_if_error` maps status codes exactly as specified: 200 returns
normally; 401, 408, 409, 410, 412 raise the authentication, timeout,
version-conflict, transaction-not-found and transaction-completed errors
respectively (each equivalence also rules the result out for every other
code); and every other code raises the generic `KvError` whose message
carries that code. -/
theorem raise_if_error_mapping (code : Int) :
    (raise_if_error code = .ok () ↔ code = 200) ∧
    (raise_if_error code = .error (.authenticationFailedError) ↔ code = 401) ∧
    (raise_if_error code = .error (.timeoutError) ↔ code = 408) ∧
    (raise_if_error code = .error (.casError) ↔ code = 409) ∧
    (raise_if_error code = .error (.transactionNotFoundError) ↔ code = 410) ∧
    (raise_if_error code = .error (.transactionCompletedError) ↔ code = 412) ∧
    (code ≠ 200 → code ≠ 401 → code ≠ 408 → code ≠ 409 → code ≠ 410 → code ≠ 412 →
      raise_if_error code =
        .error (.kvError ("Unexpected server error with code " ++ toString code))) := by
  unfold raise_if_error
  split_ifs with h₁ h₂ h₃ h₄ h₅ h₆ <;> simp_all

/-- Closed instance of `raise_if_error_mapping` at the unlisted code 500. -/
theorem raise_if_error_mapping_witness :
    raise_if_error 500 =
      .error (.kvError ("Unexpected server error with code " ++ toString (500 : Int))) :=
  (raise_if_error_mapping 500).2.2.2.2.2.2 (by decide) (by decide) (by decide) (by decide)
    (by decide) (by decide)

/-! ## Registration lemmas -/

theorem bmSet_not_in_process {α : Type} (st : BatchState α) (p c : List String)
    (v : Option α) (n r w : Int) (h : st.in_process = false) :
    bmSet st p c v n r w = (st, some (.assertionError ("Batch can be used only one time"))) := by
  simp [bmSet, h]

theorem bmCas_not_in_process {α : Type} (st : BatchState α) (p c : List String)
    (v : Option α) (ov n r w : Int) (h : st.in_process = false) :
    bmCas st p c v ov n r w =
      (st, some (.assertionError ("Batch can be used only one time"))) := by
  simp [bmCas, h]

theorem dget_of_mem_nodup {κ β : Type} [DecidableEq κ] (d : List (κ × β)) (k : κ) (v : β)
    (hnd : (dkeys d).Nodup) (hmem : (k, v) ∈ d) : dget d k = some v := by
  induction d with
  | nil => simp at hmem
  | cons hd t ih =>
    obtain ⟨a, b⟩ := hd
    rw [dkeys_cons, List.nodup_cons] at hnd
    rcases List.mem_cons.mp hmem with heq | hmem'
    · have h1 : a = k := (congrArg Prod.fst heq).symm
      have h2 : b = v := (congrArg Prod.snd heq).symm
      simp [dget, h1, h2]
    · have hk : k ∈ dkeys t := List.mem_map.mpr ⟨(k, v), hmem', rfl⟩
      have hak : ¬ a = k := fun h => hnd.1 (h ▸ hk)
      rw [dget, if_neg hak]
      exact ih hnd.2 hmem'

theorem bmSet_ok {α : Type} (st : BatchState α) (p c : List String) (v : Option α) (n r w : Int)
    (hip : st.in_process = true) (hl : lookup2 st p c = none) :
    (bmSet st p c v n r w).2 = none ∧
    (bmSet st p c v n r w).1.in_process = st.in_process ∧
    (bmSet st p c v n r w).1.future_resolved = st.future_resolved ∧
    (∀ p' c', lookup2 (bmSet st p c v n r w).1 p' c' =
      if p' = p ∧ c' = c then some ⟨v, none, 0⟩ else lookup2 st p' c') ∧
    (∀ p', p' ∈ dkeys (bmSet st p c v n r w).1.batch ↔ p' ∈ dkeys st.batch ∨ p' = p) ∧
    ((dkeys st.batch).Nodup → (dkeys (bmSet st p c v n r w).1.batch).Nodup) ∧
    ((∀ q pb, dget st.batch q = some pb → (dkeys pb.batch).Nodup) →
      ∀ q pb, dget (bmSet st p c v n r w).1.batch q = some pb → (dkeys pb.batch).Nodup) := by
  cases h₀ : dget st.batch p with
  | some pb₀ =>
    have hc : dget pb₀.batch c = none := by
      simpa [lookup2, h₀] using hl
    have hred : bmSet st p c v n r w =
        (⟨st.in_process, st.future_resolved,
          dset st.batch p ⟨pb₀.n, pb₀.r, pb₀.w, pb₀.batch ++ [(c, ⟨v, none, 0⟩)]⟩⟩, none) := by
      simp [bmSet, hip, dsetdefault, h₀, PartitionBatch.set, hc]
    rw [hred]
    have hdg : ∀ p', dget (dset st.batch p
        (⟨pb₀.n, pb₀.r, pb₀.w, pb₀.batch ++ [(c, ⟨v, none, 0⟩)]⟩ : PartitionBatch α)) p' =
        if p = p' then some (⟨pb₀.n, pb₀.r, pb₀.w,
          pb₀.batch ++ [(c, ⟨v, none, 0⟩)]⟩ : PartitionBatch α)
        else dget st.batch p' := fun p' => dget_dset ..
    have hk : dkeys (dset st.batch p
        (⟨pb₀.n, pb₀.r, pb₀.w, pb₀.batch ++ [(c, ⟨v, none, 0⟩)]⟩ : PartitionBatch α)) =
        dkeys st.batch := by
      rw [dkeys_dset]
      simp [h₀]
    refine ⟨rfl, rfl, rfl, ?_, ?_, ?_, ?_⟩
    · intro p' c'
      by_cases hp : p' = p
      · subst hp
        rw [lookup2]
        show (dget (dset st.batch p' _) p').bind _ = _
        rw [hdg, if_pos rfl, Option.some_bind]
        show dget (pb₀.batch ++ [(c, (⟨v, none, 0⟩ : BatchEntry α))]) c' = _
        rw [dget_append]
        by_cases hcc : c' = c
        · subst hcc
          simp [hc, dget, lookup2, h₀]
        · have hcc₂ : ¬ c = c' := fun h => hcc h.symm
          have h1 : dget [(c, (⟨v, none, 0⟩ : BatchEntry α))] c' = none := by
            simp [dget, hcc₂]
          rw [h1, lookup2, h₀, Option.some_bind,
            if_neg (show ¬(p' = p' ∧ c' = c) by simp [hcc])]
          cases hs : dget pb₀.batch c' <;> simp [hs]
      · have hpp : ¬ p = p' := fun h => hp h.symm
        simp [lookup2, hdg, hpp, hp]
    · intro p'
      show p' ∈ dkeys (dset st.batch p _) ↔ _
      rw [hk]
      constructor
      · exact Or.inl
      · rintro (h | h)
        · exact h
        · subst h
          exact (dget_isSome_iff_mem_dkeys st.batch p').mp (by simp [h₀])
    · intro hnd
      show (dkeys (dset st.batch p _)).Nodup
      rw [hk]
      exact hnd
    · intro hyp q pb hq
      rw [show ((⟨st.in_process, st.future_resolved, dset st.batch p
          ⟨pb₀.n, pb₀.r, pb₀.w, pb₀.batch ++ [(c, ⟨v, none, 0⟩)]⟩⟩ : BatchState α).batch) =
          dset st.batch p ⟨pb₀.n, pb₀.r, pb₀.w, pb₀.batch ++ [(c, ⟨v, none, 0⟩)]⟩ from rfl,
        hdg] at hq
      by_cases hpq : p = q
      · rw [if_pos hpq] at hq
        have hpb : pb = (⟨pb₀.n, pb₀.r, pb₀.w,
            pb₀.batch ++ [(c, ⟨v, none, 0⟩)]⟩ : PartitionBatch α) :=
          (Option.some_injective _ hq).symm
        rw [hpb]
        have hnd₀ : (dkeys pb₀.batch).Nodup := hyp p pb₀ h₀
        have hcn : c ∉ dkeys pb₀.batch := fun hmem => by
          have hs := (dget_isSome_iff_mem_dkeys pb₀.batch c).mpr hmem
          rw [hc] at hs
          simp at hs
        show (dkeys (pb₀.batch ++ [(c, (⟨v, none, 0⟩ : BatchEntry α))])).Nodup
        rw [dkeys_append,
          show dkeys [(c, (⟨v, none, 0⟩ : BatchEntry α))] = [c] from rfl]
        refine List.Nodup.append hnd₀ (List.nodup_singleton c) ?_
        intro x hx hxc
        rw [List.mem_singleton] at hxc
        exact hcn (hxc ▸ hx)
      · rw [if_neg hpq] at hq
        exact hyp q pb hq
  | none =>
    have hred : bmSet st p c v n r w =
        (⟨st.in_process, st.future_resolved,
          dset (st.batch ++ [(p, ⟨n, r, w, []⟩)]) p ⟨n, r, w, [(c, ⟨v, none, 0⟩)]⟩⟩, none) := by
      simp [bmSet, hip, dsetdefault, h₀, PartitionBatch.set, dget]
    rw [hred]
    have hgb : dget (st.batch ++ [(p, (⟨n, r, w, []⟩ : PartitionBatch α))]) p =
        some ⟨n, r, w, []⟩ := by
      rw [dget_append]
      simp [h₀, dget]
    have hdg : ∀ p', dget (dset (st.batch ++ [(p, (⟨n, r, w, []⟩ : PartitionBatch α))]) p
        (⟨n, r, w, [(c, ⟨v, none, 0⟩)]⟩ : PartitionBatch α)) p' =
        if p = p' then some (⟨n, r, w, [(c, ⟨v, none, 0⟩)]⟩ : PartitionBatch α)
        else dget st.batch p' := by
      intro p'
      rw [dget_dset]
      by_cases hpp : p = p'
      · simp [hpp]
      · rw [if_neg hpp, if_neg hpp, dget_append]
        have h1 : dget [(p, (⟨n, r, w, []⟩ : PartitionBatch α))] p' = none := by
          simp [dget, hpp]
        rw [h1]
        cases hs : dget st.batch p' <;> simp [hs]
    have hk : dkeys (dset (st.batch ++ [(p, (⟨n, r, w, []⟩ : PartitionBatch α))]) p
        (⟨n, r, w, [(c, ⟨v, none, 0⟩)]⟩ : PartitionBatch α)) = dkeys st.batch ++ [p] := by
      rw [dkeys_dset]
      simp [hgb, dkeys_append, dkeys]
    refine ⟨rfl, rfl, rfl, ?_, ?_, ?_, ?_⟩
    · intro p' c'
      by_cases hp : p' = p
      · subst hp
        rw [lookup2]
        show (dget (dset _ p' _) p').bind _ = _
        rw [hdg, if_pos rfl, Option.some_bind]
        by_cases hcc : c' = c
        · subst hcc
          simp [dget, lookup2, h₀]
        · have hcc₂ : ¬ c = c' := fun h => hcc h.symm
          have h1 : dget [(c, (⟨v, none, 0⟩ : BatchEntry α))] c' = none := by
            simp [dget, hcc₂]
          show dget [(c, (⟨v, none, 0⟩ : BatchEntry α))] c' = _
          rw [h1, lookup2, h₀, if_neg (show ¬(p' = p' ∧ c' = c) by simp [hcc])]
          rfl
      · have hpp : ¬ p = p' := fun h => hp h.symm
        simp [lookup2, hdg, hpp, hp]
    · intro p'
      show p' ∈ dkeys (dset _ p _) ↔ _
      rw [hk, List.mem_append]
      simp
    · intro hnd
      show (dkeys (dset _ p _)).Nodup
      rw [hk]
      have hpn : p ∉ dkeys st.batch := fun hmem => by
        have hs := (dget_isSome_iff_mem_dkeys st.batch p).mpr hmem
        rw [h₀] at hs
        simp at hs
      refine List.Nodup.append hnd (List.nodup_singleton p) ?_
      intro x hx hxp
      rw [List.mem_singleton] at hxp
      exact hpn (hxp ▸ hx)
    · intro hyp q pb hq
      rw [show ((⟨st.in_process, st.future_resolved,
          dset (st.batch ++ [(p, ⟨n, r, w, []⟩)]) p
            ⟨n, r, w, [(c, ⟨v, none, 0⟩)]⟩⟩ : BatchState α).batch) =
          dset (st.batch ++ [(p, ⟨n, r, w, []⟩)]) p ⟨n, r, w, [(c, ⟨v, none, 0⟩)]⟩ from rfl,
        hdg] at hq
      by_cases hpq : p = q
      · rw [if_pos hpq] at hq
        have hpb : pb = (⟨n, r, w, [(c, ⟨v, none, 0⟩)]⟩ : PartitionBatch α) :=
          (Option.some_injective _ hq).symm
        rw [hpb]
        simp [dkeys]
      · rw [if_neg hpq] at hq
        exact hyp q pb hq

theorem bmCas_ok {α : Type} (st : BatchState α) (p c : List String) (v : Option α) (ov : Int) (n r w : Int)
    (hip : st.in_process = true) (hl : lookup2 st p c = none) :
    (bmCas st p c v ov n r w).2 = none ∧
    (bmCas st p c v ov n r w).1.in_process = st.in_process ∧
    (bmCas st p c v ov n r w).1.future_resolved = st.future_resolved ∧
    (∀ p' c', lookup2 (bmCas st p c v ov n r w).1 p' c' =
      if p' = p ∧ c' = c then some ⟨v, some ov, 0⟩ else lookup2 st p' c') ∧
    (∀ p', p' ∈ dkeys (bmCas st p c v ov n r w).1.batch ↔ p' ∈ dkeys st.batch ∨ p' = p) ∧
    ((dkeys st.batch).Nodup → (dkeys (bmCas st p c v ov n r w).1.batch).Nodup) ∧
    ((∀ q pb, dget st.batch q = some pb → (dkeys pb.batch).Nodup) →
      ∀ q pb, dget (bmCas st p c v ov n r w).1.batch q = some pb → (dkeys pb.batch).Nodup) := by
  cases h₀ : dget st.batch p with
  | some pb₀ =>
    have hc : dget pb₀.batch c = none := by
      simpa [lookup2, h₀] using hl
    have hred : bmCas st p c v ov n r w =
        (⟨st.in_process, st.future_resolved,
          dset st.batch p ⟨pb₀.n, pb₀.r, pb₀.w, pb₀.batch ++ [(c, ⟨v, some ov, 0⟩)]⟩⟩, none) := by
      simp [bmCas, hip, dsetdefault, h₀, PartitionBatch.cas, hc]
    rw [hred]
    have hdg : ∀ p', dget (dset st.batch p
        (⟨pb₀.n, pb₀.r, pb₀.w, pb₀.batch ++ [(c, ⟨v, some ov, 0⟩)]⟩ : PartitionBatch α)) p' =
        if p = p' then some (⟨pb₀.n, pb₀.r, pb₀.w,
          pb₀.batch ++ [(c, ⟨v, some ov, 0⟩)]⟩ : PartitionBatch α)
        else dget st.batch p' := fun p' => dget_dset ..
    have hk : dkeys (dset st.batch p
        (⟨pb₀.n, pb₀.r, pb₀.w, pb₀.batch ++ [(c, ⟨v, some ov, 0⟩)]⟩ : PartitionBatch α)) =
        dkeys st.batch := by
      rw [dkeys_dset]
      simp [h₀]
    refine ⟨rfl, rfl, rfl, ?_, ?_, ?_, ?_⟩
    · intro p' c'
      by_cases hp : p' = p
      · subst hp
        rw [lookup2]
        show (dget (dset st.batch p' _) p').bind _ = _
        rw [hdg, if_pos rfl, Option.some_bind]
        show dget (pb₀.batch ++ [(c, (⟨v, some ov, 0⟩ : BatchEntry α))]) c' = _
        rw [dget_append]
        by_cases hcc : c' = c
        · subst hcc
          simp [hc, dget, lookup2, h₀]
        · have hcc₂ : ¬ c = c' := fun h => hcc h.symm
          have h1 : dget [(c, (⟨v, some ov, 0⟩ : BatchEntry α))] c' = none := by
            simp [dget, hcc₂]
          rw [h1, lookup2, h₀, Option.some_bind,
            if_neg (show ¬(p' = p' ∧ c' = c) by simp [hcc])]
          cases hs : dget pb₀.batch c' <;> simp [hs]
      · have hpp : ¬ p = p' := fun h => hp h.symm
        simp [lookup2, hdg, hpp, hp]
    · intro p'
      show p' ∈ dkeys (dset st.batch p _) ↔ _
      rw [hk]
      constructor
      · exact Or.inl
      · rintro (h | h)
        · exact h
        · subst h
          exact (dget_isSome_iff_mem_dkeys st.batch p').mp (by simp [h₀])
    · intro hnd
      show (dkeys (dset st.batch p _)).Nodup
      rw [hk]
      exact hnd
    · intro hyp q pb hq
      rw [show ((⟨st.in_process, st.future_resolved, dset st.batch p
          ⟨pb₀.n, pb₀.r, pb₀.w, pb₀.batch ++ [(c, ⟨v, some ov, 0⟩)]⟩⟩ : BatchState α).batch) =
          dset st.batch p ⟨pb₀.n, pb₀.r, pb₀.w, pb₀.batch ++ [(c, ⟨v, some ov, 0⟩)]⟩ from rfl,
        hdg] at hq
      by_cases hpq : p = q
      · rw [if_pos hpq] at hq
        have hpb : pb = (⟨pb₀.n, pb₀.r, pb₀.w,
            pb₀.batch ++ [(c, ⟨v, some ov, 0⟩)]⟩ : PartitionBatch α) :=
          (Option.some_injective _ hq).symm
        rw [hpb]
        have hnd₀ : (dkeys pb₀.batch).Nodup := hyp p pb₀ h₀
        have hcn : c ∉ dkeys pb₀.batch := fun hmem => by
          have hs := (dget_isSome_iff_mem_dkeys pb₀.batch c).mpr hmem
          rw [hc] at hs
          simp at hs
        show (dkeys (pb₀.batch ++ [(c, (⟨v, some ov, 0⟩ : BatchEntry α))])).Nodup
        rw [dkeys_append,
          show dkeys [(c, (⟨v, some ov, 0⟩ : BatchEntry α))] = [c] from rfl]
        refine List.Nodup.append hnd₀ (List.nodup_singleton c) ?_
        intro x hx hxc
        rw [List.mem_singleton] at hxc
        exact hcn (hxc ▸ hx)
      · rw [if_neg hpq] at hq
        exact hyp q pb hq
  | none =>
    have hred : bmCas st p c v ov n r w =
        (⟨st.in_process, st.future_resolved,
          dset (st.batch ++ [(p, ⟨n, r, w, []⟩)]) p ⟨n, r, w, [(c, ⟨v, some ov, 0⟩)]⟩⟩, none) := by
      simp [bmCas, hip, dsetdefault, h₀, PartitionBatch.cas, dget]
    rw [hred]
    have hgb : dget (st.batch ++ [(p, (⟨n, r, w, []⟩ : PartitionBatch α))]) p =
        some ⟨n, r, w, []⟩ := by
      rw [dget_append]
      simp [h₀, dget]
    have hdg : ∀ p', dget (dset (st.batch ++ [(p, (⟨n, r, w, []⟩ : PartitionBatch α))]) p
        (⟨n, r, w, [(c, ⟨v, some ov, 0⟩)]⟩ : PartitionBatch α)) p' =
        if p = p' then some (⟨n, r, w, [(c, ⟨v, some ov, 0⟩)]⟩ : PartitionBatch α)
        else dget st.batch p' := by
      intro p'
      rw [dget_dset]
      by_cases hpp : p = p'
      · simp [hpp]
      · rw [if_neg hpp, if_neg hpp, dget_append]
        have h1 : dget [(p, (⟨n, r, w, []⟩ : PartitionBatch α))] p' = none := by
          simp [dget, hpp]
        rw [h1]
        cases hs : dget st.batch p' <;> simp [hs]
    have hk : dkeys (dset (st.batch ++ [(p, (⟨n, r, w, []⟩ : PartitionBatch α))]) p
        (⟨n, r, w, [(c, ⟨v, some ov, 0⟩)]⟩ : PartitionBatch α)) = dkeys st.batch ++ [p] := by
      rw [dkeys_dset]
      simp [hgb, dkeys_append, dkeys]
    refine ⟨rfl, rfl, rfl, ?_, ?_, ?_, ?_⟩
    · intro p' c'
      by_cases hp : p' = p
      · subst hp
        rw [lookup2]
        show (dget (dset _ p' _) p').bind _ = _
        rw [hdg, if_pos rfl, Option.some_bind]
        by_cases hcc : c' = c
        · subst hcc
          simp [dget, lookup2, h₀]
        · have hcc₂ : ¬ c = c' := fun h => hcc h.symm
          have h1 : dget [(c, (⟨v, some ov, 0⟩ : BatchEntry α))] c' = none := by
            simp [dget, hcc₂]
          show dget [(c, (⟨v, some ov, 0⟩ : BatchEntry α))] c' = _
          rw [h1, lookup2, h₀, if_neg (show ¬(p' = p' ∧ c' = c) by simp [hcc])]
          rfl
      · have hpp : ¬ p = p' := fun h => hp h.symm
        simp [lookup2, hdg, hpp, hp]
    · intro p'
      show p' ∈ dkeys (dset _ p _) ↔ _
      rw [hk, List.mem_append]
      simp
    · intro hnd
      show (dkeys (dset _ p _)).Nodup
      rw [hk]
      have hpn : p ∉ dkeys st.batch := fun hmem => by
        have hs := (dget_isSome_iff_mem_dkeys st.batch p).mpr hmem
        rw [h₀] at hs
        simp at hs
      refine List.Nodup.append hnd (List.nodup_singleton p) ?_
      intro x hx hxp
      rw [List.mem_singleton] at hxp
      exact hpn (hxp ▸ hx)
    · intro hyp q pb hq
      rw [show ((⟨st.in_process, st.future_resolved,
          dset (st.batch ++ [(p, ⟨n, r, w, []⟩)]) p
            ⟨n, r, w, [(c, ⟨v, some ov, 0⟩)]⟩⟩ : BatchState α).batch) =
          dset (st.batch ++ [(p, ⟨n, r, w, []⟩)]) p ⟨n, r, w, [(c, ⟨v, some ov, 0⟩)]⟩ from rfl,
        hdg] at hq
      by_cases hpq : p = q
      · rw [if_pos hpq] at hq
        have hpb : pb = (⟨n, r, w, [(c, ⟨v, some ov, 0⟩)]⟩ : PartitionBatch α) :=
          (Option.some_injective _ hq).symm
        rw [hpb]
        simp [dkeys]
      · rw [if_neg hpq] at hq
        exact hyp q pb hq


theorem applyReg_ok {α : Type} (st : BatchState α) (reg : Reg α)
    (hip : st.in_process = true) (hl : lookup2 st reg.partition reg.clustering = none) :
    (applyReg st reg).2 = none ∧
    (applyReg st reg).1.in_process = st.in_process ∧
    (applyReg st reg).1.future_resolved = st.future_resolved ∧
    (∀ p' c', lookup2 (applyReg st reg).1 p' c' =
      if p' = reg.partition ∧ c' = reg.clustering then some ⟨reg.value, reg.oldVersion, 0⟩
      else lookup2 st p' c') ∧
    (∀ p', p' ∈ dkeys (applyReg st reg).1.batch ↔ p' ∈ dkeys st.batch ∨ p' = reg.partition) ∧
    ((dkeys st.batch).Nodup → (dkeys (applyReg st reg).1.batch).Nodup) ∧
    ((∀ q pb, dget st.batch q = some pb → (dkeys pb.batch).Nodup) →
      ∀ q pb, dget (applyReg st reg).1.batch q = some pb → (dkeys pb.batch).Nodup) := by
  obtain ⟨p, c, op, n, r, w⟩ := reg
  cases op with
  | set v => exact bmSet_ok st p c v n r w hip hl
  | cas v ov => exact bmCas_ok st p c v ov n r w hip hl

theorem registerAll_ok {α : Type} (regs : List (Reg α)) (st : BatchState α)
    (hip : st.in_process = true)
    (hfresh : ∀ reg ∈ regs, lookup2 st reg.partition reg.clustering = none)
    (hnd : (regs.map fun reg => (reg.partition, reg.clustering)).Nodup) :
    (registerAll st regs).2 = none ∧
    (registerAll st regs).1.in_process = true ∧
    (registerAll st regs).1.future_resolved = st.future_resolved ∧
    (∀ reg ∈ regs, lookup2 (registerAll st regs).1 reg.partition reg.clustering =
      some ⟨reg.value, reg.oldVersion, 0⟩) ∧
    (∀ p c, (∀ reg ∈ regs, ¬(reg.partition = p ∧ reg.clustering = c)) →
      lookup2 (registerAll st regs).1 p c = lookup2 st p c) ∧
    (∀ p', p' ∈ dkeys (registerAll st regs).1.batch ↔
      p' ∈ dkeys st.batch ∨ p' ∈ regs.map Reg.partition) ∧
    ((dkeys st.batch).Nodup → (dkeys (registerAll st regs).1.batch).Nodup) ∧
    ((∀ q pb, dget st.batch q = some pb → (dkeys pb.batch).Nodup) →
      ∀ q pb, dget (registerAll st regs).1.batch q = some pb → (dkeys pb.batch).Nodup) := by
  induction regs generalizing st with
  | nil =>
    refine ⟨rfl, hip, rfl, ?_, ?_, ?_, ?_, ?_⟩
    · intro reg hreg
      simp at hreg
    · intro p c _
      rfl
    · intro p'
      simp [registerAll]
    · intro h
      exact h
    · intro h
      exact h
  | cons reg rest ih =>
    have hl : lookup2 st reg.partition reg.clustering = none :=
      hfresh reg (List.mem_cons_self reg rest)
    obtain ⟨A1, A2, A3, A4, A5, A6, A7⟩ := applyReg_ok st reg hip hl
    have hpair : applyReg st reg = ((applyReg st reg).1, none) := Prod.ext rfl A1
    have hstep : registerAll st (reg :: rest) = registerAll (applyReg st reg).1 rest := by
      rw [registerAll, hpair]
    have hheadnotin : ∀ reg' ∈ rest,
        ¬(reg'.partition = reg.partition ∧ reg'.clustering = reg.clustering) := by
      intro reg' hmem hcontr
      have : (reg.partition, reg.clustering) ∈
          rest.map fun r₀ => (r₀.partition, r₀.clustering) :=
        List.mem_map.mpr ⟨reg', hmem, by rw [hcontr.1, hcontr.2]⟩
      exact (List.nodup_cons.mp hnd).1 this
    have hip₁ : (applyReg st reg).1.in_process = true := A2.trans hip
    have hfresh₁ : ∀ reg' ∈ rest,
        lookup2 (applyReg st reg).1 reg'.partition reg'.clustering = none := by
      intro reg' hmem
      rw [A4, if_neg (hheadnotin reg' hmem)]
      exact hfresh reg' (List.mem_cons_of_mem _ hmem)
    have hnd₁ : (rest.map fun r₀ => (r₀.partition, r₀.clustering)).Nodup :=
      (List.nodup_cons.mp hnd).2
    obtain ⟨I1, I2, I3, I4, I5, I6, I7, I8⟩ := ih (applyReg st reg).1 hip₁ hfresh₁ hnd₁
    rw [hstep]
    refine ⟨I1, I2, I3.trans A3, ?_, ?_, ?_, fun h => I7 (A6 h), fun h => I8 (A7 h)⟩
    · intro reg' hmem
      rcases List.mem_cons.mp hmem with heq | hmem'
      · subst heq
        rw [I5 reg'.partition reg'.clustering (by
          intro reg'' hmem'' hcontr
          exact hheadnotin reg'' hmem'' hcontr)]
        rw [A4, if_pos ⟨rfl, rfl⟩]
      · exact I4 reg' hmem'
    · intro p c hnone
      rw [I5 p c (fun reg' hmem => hnone reg' (List.mem_cons_of_mem _ hmem))]
      rw [A4, if_neg (show ¬(p = reg.partition ∧ c = reg.clustering) from
        fun hcc => hnone reg (List.mem_cons_self reg rest) ⟨hcc.1.symm, hcc.2.symm⟩)]
    · intro p'
      rw [I6 p']
      rw [List.map_cons, List.mem_cons]
      constructor
      · rintro (h | h)
        · rcases (A5 p').mp h with h' | h'
          · exact Or.inl h'
          · exact Or.inr (Or.inl h')
        · exact Or.inr (Or.inr h)
      · rintro (h | h | h)
        · exact Or.inl ((A5 p').mpr (Or.inl h))
        · exact Or.inl ((A5 p').mpr (Or.inr h))
        · exact Or.inr h

theorem lookup2_eq_some_iff {α : Type} (st : BatchState α) (p c : List String)
    (e : BatchEntry α) :
    lookup2 st p c = some e ↔
      ∃ pb, dget st.batch p = some pb ∧ dget pb.batch c = some e := by
  rw [lookup2]
  cases h : dget st.batch p with
  | none => simp
  | some pb => simp [h]

theorem dget_map_entry {κ β γ : Type} [DecidableEq κ] (b : List (κ × β)) (F : κ → β → γ)
    (k : κ) :
    dget (b.map fun x => (x.1, F x.1 x.2)) k = (dget b k).map (F k) := by
  induction b with
  | nil => simp [dget]
  | cons hd t ih =>
    obtain ⟨a, e⟩ := hd
    by_cases hak : a = k
    · subst hak
      simp [dget]
    · simp [dget, hak, ih]

theorem applyItems_skip {α : Type} (items : List RespItem) (k₁ : List String)
    (e : BatchEntry α) (t : List (List String × BatchEntry α))
    (hne : ∀ it ∈ items, it.key ≠ k₁) :
    applyItems ((k₁, e) :: t) items =
      ((k₁, e) :: (applyItems t items).1, (applyItems t items).2) := by
  induction items generalizing e t with
  | nil => rfl
  | cons item rest ih =>
    have hk : ¬ k₁ = item.key := fun h =>
      hne item (List.mem_cons_self item rest) h.symm
    cases hd : dget t item.key with
    | none =>
      have h1 : dget ((k₁, e) :: t) item.key = none := by
        rw [dget, if_neg hk, hd]
      simp only [applyItems, h1, hd]
    | some e' =>
      have h1 : dget ((k₁, e) :: t) item.key = some e' := by
        rw [dget, if_neg hk, hd]
      have h2 : dset ((k₁, e) :: t) item.key ({ e' with new_version := item.version }) =
          (k₁, e) :: dset t item.key ({ e' with new_version := item.version }) := by
        rw [dset, if_neg hk]
      simp only [applyItems, h1, hd, h2]
      rw [ih _ _ (fun it hit => hne it (List.mem_cons_of_mem _ hit))]

theorem applyItems_echo {α : Type} (b : List (List String × BatchEntry α))
    (g : List String → Int) (hnd : (dkeys b).Nodup) :
    applyItems b (b.map fun ce => RespItem.mk ce.1 (g ce.1)) =
      (b.map fun ce => (ce.1, { ce.2 with new_version := g ce.1 }), none) := by
  induction b with
  | nil => rfl
  | cons hd t ih =>
    obtain ⟨k, e⟩ := hd
    rw [dkeys_cons, List.nodup_cons] at hnd
    have h1 : dget ((k, e) :: t) (RespItem.mk k (g k)).key = some e := by
      simp [dget]
    have h2 : dset ((k, e) :: t) (RespItem.mk k (g k)).key
        ({ e with new_version := (RespItem.mk k (g k)).version }) =
        (k, { e with new_version := g k }) :: t := by
      simp [dset]
    have hne : ∀ it ∈ t.map fun ce => RespItem.mk ce.1 (g ce.1), it.key ≠ k := by
      intro it hit
      obtain ⟨ce, hce, hform⟩ := List.mem_map.mp hit
      intro hkey
      apply hnd.1
      rw [← hform] at hkey
      exact hkey ▸ List.mem_map.mpr ⟨ce, hce, rfl⟩
    simp only [List.map_cons, applyItems, h1, h2]
    rw [applyItems_skip _ _ _ _ hne, ih hnd.2]

theorem sendPartition_echo {α : Type} (tr : Transport α) (f : String → List String → Int)
    (htr : ∀ url n r w body, tr url n r w body = (200, echoResp (f url) body))
    (p : List String) (pb : PartitionBatch α) (hnd : (dkeys pb.batch).Nodup) :
    sendPartition tr p pb =
      (pbApplyVersions (f (partitionPutUrl p)) pb, none,
        [Ev.start p (partitionPutUrl p) pb.n pb.r pb.w pb.build_request_body,
         Ev.finish p 200 (echoResp (f (partitionPutUrl p)) pb.build_request_body)]) := by
  have hresp : echoResp (f (partitionPutUrl p)) pb.build_request_body =
      pb.batch.map fun ce => RespItem.mk ce.1 (f (partitionPutUrl p) ce.1) := by
    simp [echoResp, PartitionBatch.build_request_body, List.map_map]
  have happly : pb.apply_response (echoResp (f (partitionPutUrl p)) pb.build_request_body) =
      (pbApplyVersions (f (partitionPutUrl p)) pb, none) := by
    rw [hresp, PartitionBatch.apply_response, if_neg (by simp)]
    rw [applyItems_echo pb.batch (f (partitionPutUrl p)) hnd]
    rfl
  simp only [sendPartition, sendPartitionUrl, htr,
    show raise_if_error 200 = Except.ok () from rfl, happly]

theorem sendLoop_echo {α : Type} (tr : Transport α) (f : String → List String → Int)
    (htr : ∀ url n r w body, tr url n r w body = (200, echoResp (f url) body))
    (b : List (List String × PartitionBatch α))
    (hnd : ∀ x ∈ b, (dkeys x.2.batch).Nodup) :
    sendLoop tr b =
      (b.map fun x => (x.1, pbApplyVersions (f (partitionPutUrl x.1)) x.2), none,
       b.flatMap fun x =>
        [Ev.start x.1 (partitionPutUrl x.1) x.2.n x.2.r x.2.w x.2.build_request_body,
         Ev.finish x.1 200 (echoResp (f (partitionPutUrl x.1)) x.2.build_request_body)]) := by
  induction b with
  | nil => rfl
  | cons hd t ih =>
    obtain ⟨p, pb⟩ := hd
    rw [sendLoop,
      sendPartition_echo tr f htr p pb (hnd (p, pb) (List.mem_cons_self _ _)),
      ih (fun x hx => hnd x (List.mem_cons_of_mem _ hx))]
    simp

theorem send_echo {α : Type} (tr : Transport α) (f : String → List String → Int)
    (htr : ∀ url n r w body, tr url n r w body = (200, echoResp (f url) body))
    (st : BatchState α) (hfr : st.future_resolved = false)
    (hnd : ∀ x ∈ st.batch, (dkeys x.2.batch).Nodup) :
    send tr st =
      (⟨false, true, st.batch.map fun x =>
          (x.1, pbApplyVersions (f (partitionPutUrl x.1)) x.2)⟩, none,
       st.batch.flatMap fun x =>
        [Ev.start x.1 (partitionPutUrl x.1) x.2.n x.2.r x.2.w x.2.build_request_body,
         Ev.finish x.1 200 (echoResp (f (partitionPutUrl x.1)) x.2.build_request_body)]) := by
  rw [send]
  rw [show ({ st with in_process := false } : BatchState α).batch = st.batch from rfl,
    sendLoop_echo tr f htr st.batch hnd]
  simp [hfr]

theorem trace_start_count {α : Type} (b : List (List String × PartitionBatch α))
    (f : String → List String → Int) (p₀ : List String) :
    ((b.flatMap fun x =>
      [Ev.start x.1 (partitionPutUrl x.1) x.2.n x.2.r x.2.w x.2.build_request_body,
       Ev.finish x.1 200 (echoResp (f (partitionPutUrl x.1)) x.2.build_request_body)]).countP
        fun ev => ev.isStartOf p₀) = (dkeys b).count p₀ := by
  induction b with
  | nil => rfl
  | cons hd t ih =>
    obtain ⟨p, pb⟩ := hd
    rw [List.flatMap_cons, List.countP_append, ih, dkeys_cons]
    by_cases hp : p = p₀
    · subst hp
      simp [List.countP_cons, Ev.isStartOf, Ev.isFinishOf, List.count_cons]
      omega
    · simp [List.countP_cons, Ev.isStartOf, Ev.isFinishOf, List.count_cons, hp]

theorem dget_map_pbApply {α : Type} (b : List (List String × PartitionBatch α))
    (f : String → List String → Int) (k : List String) :
    dget (b.map fun x => (x.1, pbApplyVersions (f (partitionPutUrl x.1)) x.2)) k =
      (dget b k).map fun pb => pbApplyVersions (f (partitionPutUrl k)) pb :=
  dget_map_entry b (fun u pb => pbApplyVersions (f (partitionPutUrl u)) pb) k

theorem dget_map_setver {α : Type} (b : List (List String × BatchEntry α))
    (g : List String → Int) (k : List String) :
    dget (b.map fun ce => (ce.1, { ce.2 with new_version := g ce.1 })) k =
      (dget b k).map fun e => { e with new_version := g k } :=
  dget_map_entry b (fun u e => { e with new_version := g u }) k

/-- C2.  Starting from a fresh batch, registering `set`/`cas` calls on
pairwise-distinct `(partition, clustering)` keys and then invoking `send`
against a well-behaved transport (each partition answers 200, pairing every
request key with a version chosen by the oracle `f`): every registration is
accepted, `send` resolves the shared future without error, the wire trace
consists of exactly one PUT per registered partition — its body being that
partition's pending keys, each with its new value and its old version
(`none` for `set`, the given one for `cas`) — and every suspended caller
observes exactly the version its partition's response assigned to its own
key. -/
theorem batch_send_one_put_per_partition {α : Type} (regs : List (Reg α)) (tr : Transport α)
    (f : String → List String → Int)
    (hnd : (regs.map fun reg => (reg.partition, reg.clustering)).Nodup)
    (htr : ∀ url n r w body, tr url n r w body = (200, echoResp (f url) body)) :
    (registerAll (BatchState.init α) regs).2 = none ∧
    (send tr (registerAll (BatchState.init α) regs).1).2.1 = none ∧
    (send tr (registerAll (BatchState.init α) regs).1).1.future_resolved = true ∧
    (send tr (registerAll (BatchState.init α) regs).1).2.2 =
      ((registerAll (BatchState.init α) regs).1.batch.flatMap fun x =>
        [Ev.start x.1 (partitionPutUrl x.1) x.2.n x.2.r x.2.w x.2.build_request_body,
         Ev.finish x.1 200 (echoResp (f (partitionPutUrl x.1)) x.2.build_request_body)]) ∧
    (dkeys (registerAll (BatchState.init α) regs).1.batch).Nodup ∧
    (∀ p, p ∈ dkeys (registerAll (BatchState.init α) regs).1.batch ↔
      p ∈ regs.map Reg.partition) ∧
    (∀ p, ((send tr (registerAll (BatchState.init α) regs).1).2.2.countP
        fun ev => ev.isStartOf p) =
      (dkeys (registerAll (BatchState.init α) regs).1.batch).count p) ∧
    (∀ reg ∈ regs, ∃ pb,
      dget (registerAll (BatchState.init α) regs).1.batch reg.partition = some pb ∧
      ReqItem.mk reg.clustering reg.value reg.oldVersion ∈ pb.build_request_body) ∧
    (∀ reg ∈ regs, callerVersion (send tr (registerAll (BatchState.init α) regs).1).1
        reg.partition reg.clustering =
      some (f (partitionPutUrl reg.partition) reg.clustering)) := by
  have hfresh : ∀ reg ∈ regs,
      lookup2 (BatchState.init α) reg.partition reg.clustering = none := fun _ _ => rfl
  obtain ⟨R1, R2, R3, R4, R5, R6, R7, R8⟩ :=
    registerAll_ok regs (BatchState.init α) rfl hfresh hnd
  have hKnd : (dkeys (registerAll (BatchState.init α) regs).1.batch).Nodup :=
    R7 (by simp [BatchState.init, dkeys])
  have hpbnd : ∀ q pb, dget (registerAll (BatchState.init α) regs).1.batch q = some pb →
      (dkeys pb.batch).Nodup :=
    R8 (fun q pb h => by simp [BatchState.init, dget] at h)
  have hndx : ∀ x ∈ (registerAll (BatchState.init α) regs).1.batch,
      (dkeys x.2.batch).Nodup := by
    intro x hx
    exact hpbnd x.1 x.2 (dget_of_mem_nodup _ _ _ hKnd (by rwa [Prod.mk.eta]))
  have hfr : (registerAll (BatchState.init α) regs).1.future_resolved = false := R3.trans rfl
  have hsend := send_echo tr f htr (registerAll (BatchState.init α) regs).1 hfr hndx
  refine ⟨R1, ?_, ?_, ?_, hKnd, ?_, ?_, ?_, ?_⟩
  · rw [hsend]
  · rw [hsend]
  · rw [hsend]
  · intro p
    refine (R6 p).trans ⟨fun h => h.resolve_left (by simp [BatchState.init, dkeys]), Or.inr⟩
  · intro p
    rw [hsend]
    exact trace_start_count _ f p
  · intro reg hreg
    obtain ⟨pb, hpb, he⟩ := (lookup2_eq_some_iff _ _ _ _).mp (R4 reg hreg)
    refine ⟨pb, hpb, ?_⟩
    exact List.mem_map.mpr ⟨(reg.clustering, ⟨reg.value, reg.oldVersion, 0⟩), dget_mem _ _ _ he, rfl⟩
  · intro reg hreg
    obtain ⟨pb, hpb, he⟩ := (lookup2_eq_some_iff _ _ _ _).mp (R4 reg hreg)
    rw [hsend]
    show (dget ((registerAll (BatchState.init α) regs).1.batch.map fun x =>
        (x.1, pbApplyVersions (f (partitionPutUrl x.1)) x.2)) reg.partition).bind
        (fun pb₁ => (dget pb₁.batch reg.clustering).map fun e => e.new_version) = _
    rw [dget_map_pbApply, hpb, Option.map_some', Option.some_bind]
    show (dget (pb.batch.map fun ce =>
        (ce.1, { ce.2 with new_version := f (partitionPutUrl reg.partition) ce.1 }))
        reg.clustering).map (fun e => e.new_version) = _
    rw [dget_map_setver, he, Option.map_some', Option.map_some']

theorem sendPartition_evs {α : Type} (tr : Transport α) (p : List String)
    (pb : PartitionBatch α) :
    ∃ code resp, (sendPartition tr p pb).2.2 =
      [Ev.start p (partitionPutUrl p) pb.n pb.r pb.w pb.build_request_body,
       Ev.finish p code resp] := by
  rw [sendPartition, sendPartitionUrl]
  rcases htr : tr (partitionPutUrl p) pb.n pb.r pb.w pb.build_request_body with ⟨code, resp⟩
  refine ⟨code, resp, ?_⟩
  cases hre : raise_if_error code with
  | error e => simp [hre]
  | ok u =>
    rcases hap : pb.apply_response resp with ⟨pb', err⟩
    simp [hre, hap]

theorem seqTrace_sendLoop {α : Type} (tr : Transport α)
    (b : List (List String × PartitionBatch α)) :
    seqTrace (sendLoop tr b).2.2 = true := by
  induction b with
  | nil => rfl
  | cons hd t ih =>
    obtain ⟨p, pb⟩ := hd
    obtain ⟨code, resp, hevs⟩ := sendPartition_evs tr p pb
    rw [sendLoop]
    rcases hsp : sendPartition tr p pb with ⟨pb', err, evs⟩
    have hevs' : evs =
        [Ev.start p (partitionPutUrl p) pb.n pb.r pb.w pb.build_request_body,
         Ev.finish p code resp] := by
      rw [hsp] at hevs
      exact hevs
    cases err with
    | some e =>
      simp only [hevs', seqTrace]
      simp
    | none =>
      rcases hrest : sendLoop tr t with ⟨rest', err', evs'⟩
      have ih' : seqTrace evs' = true := by
        rw [hrest] at ih
        exact ih
      simp only [hrest, hevs', List.cons_append, List.nil_append, seqTrace]
      simp [ih']

/-- C4 (amended).  The per-partition transport calls of one `send` are
strictly sequential: the wire trace is a chain of issue-then-complete pairs,
each partition's PUT being issued only after the previous partition's PUT
has completed; and the shared future is resolved (only) after all calls
completed without error. -/
theorem send_trace_sequential {α : Type} (tr : Transport α) (st : BatchState α) :
    seqTrace (send tr st).2.2 = true ∧
    ((send tr st).2.1 = none → st.future_resolved = false →
      (send tr st).1.future_resolved = true) ∧
    ((send tr st).2.1 ≠ none → (send tr st).1.future_resolved = st.future_resolved) := by
  rcases hsl : sendLoop tr st.batch with ⟨b', err, evs⟩
  have hseq : seqTrace evs = true := by
    have h := seqTrace_sendLoop tr st.batch
    rw [hsl] at h
    exact h
  refine ⟨?_, ?_, ?_⟩
  · simp only [send, hsl]
    cases err with
    | some e => exact hseq
    | none =>
      by_cases hr : st.future_resolved <;> simp [hr, hseq]
  · intro hok hfr
    simp only [send, hsl] at hok ⊢
    cases err with
    | some e => simp at hok
    | none => simp [hfr]
  · intro hne
    simp only [send, hsl] at hne ⊢
    cases err with
    | some e => rfl
    | none =>
      by_cases hr : st.future_resolved
      · simp [hr]
      · simp [hr] at hne

/-- Closed instance of `batch_send_one_put_per_partition` at the two-partition
example batch, with a transport assigning version 5 to every key. -/
theorem batch_send_one_put_per_partition_witness :
    (send exTransportOk (registerAll (BatchState.init Nat) exRegs).1).2.1 = none ∧
    (send exTransportOk (registerAll (BatchState.init Nat) exRegs).1).1.future_resolved = true ∧
    callerVersion (send exTransportOk (registerAll (BatchState.init Nat) exRegs).1).1
      ["p1"] ["a"] = some 5 :=
  ⟨(batch_send_one_put_per_partition exRegs exTransportOk (fun _ _ => 5) (by decide)
      (fun _ _ _ _ _ => rfl)).2.1,
   (batch_send_one_put_per_partition exRegs exTransportOk (fun _ _ => 5) (by decide)
      (fun _ _ _ _ _ => rfl)).2.2.1,
   (batch_send_one_put_per_partition exRegs exTransportOk (fun _ _ => 5) (by decide)
      (fun _ _ _ _ _ => rfl)).2.2.2.2.2.2.2.2
     ⟨["p1"], ["a"], .set (some 1), 3, 2, 2⟩ (by decide)⟩

/-- C4, counterexample.  On the example batch with two partitions `p1`, `p2`
(both succeeding), the PUT for `p2` is issued at trace position 2, strictly
after the PUT for `p1` completed at position 1: the two per-partition calls
do not run concurrently — `p2`'s call is not issued before `p1`'s completes,
refuting the claim that `send()` issues the per-partition calls concurrently
with each other. -/
theorem send_not_concurrent_counterexample :
    startIdx (send exTransportOk exState).2.2 ["p2"] = some 2 ∧
    finishIdx (send exTransportOk exState).2.2 ["p1"] = some 1 ∧
    issuedBefore (send exTransportOk exState).2.2 ["p2"] ["p1"] = false ∧
    issuedBefore (send exTransportOk exState).2.2 ["p1"] ["p2"] = true := by
  decide

/-- Closed instance of `send_trace_sequential` at the example batch. -/
theorem send_trace_sequential_witness :
    seqTrace (send exTransportOk exState).2.2 = true ∧
    (send exTransportOk exState).1.future_resolved = true :=
  ⟨(send_trace_sequential exTransportOk exState).1,
   (send_trace_sequential exTransportOk exState).2.1 (by decide) (by decide)⟩

/-- C1.  Evaluation of `send` at the failing input: partitions `p1` (one
`set` of key `a`) and `p2` (one `set` of key `b`) are registered; the
transport answers 200/version 7 for `p1` and status 500 for `p2`.  The
`KvError` for code 500 propagates out of `send()` itself; the shared future
is never resolved, so no suspended caller observes any result — `p1`'s
caller does not receive its successful version 7 even though that version
was recorded in its batch entry, and `p2`'s caller does not observe the
error. -/
theorem send_partition_failure_behavior :
    (send exTransportFail exState).2.1 =
      some (.kvError ("Unexpected server error with code 500")) ∧
    (send exTransportFail exState).1.future_resolved = false ∧
    callerVersion (send exTransportFail exState).1 ["p1"] ["a"] = none ∧
    callerVersion (send exTransportFail exState).1 ["p2"] ["b"] = none ∧
    lookup2 (send exTransportFail exState).1 ["p1"] ["a"] = some ⟨some 1, none, 7⟩ := by
  decide

/-- C3.  A batch is single-use: after any `send` invocation the batch has
left the in-process state, every later `set`/`cas` registration is rejected
at once with the `AssertionError` of `_assert_in_process` and leaves the
state untouched (registration functions perform no transport call by
construction — `send` alone talks to the transport); and when a first `send`
succeeded, a second `send` invocation always raises (at the latest
`InvalidStateError` from resolving the already-resolved future). -/
theorem batch_single_use {α : Type} (st : BatchState α) (tr tr' : Transport α)
    (p c : List String) (v : Option α) (ov n r w : Int) :
    (send tr st).1.in_process = false ∧
    bmSet (send tr st).1 p c v n r w =
      ((send tr st).1, some (.assertionError ("Batch can be used only one time"))) ∧
    bmCas (send tr st).1 p c v ov n r w =
      ((send tr st).1, some (.assertionError ("Batch can be used only one time"))) ∧
    ((send tr st).2.1 = none → (send tr' (send tr st).1).2.1 ≠ none) := by
  have hip : (send tr st).1.in_process = false := by
    rcases hsl : sendLoop tr st.batch with ⟨b', err, evs⟩
    simp only [send, hsl]
    cases err with
    | some e => rfl
    | none => by_cases hr : st.future_resolved <;> simp [hr]
  refine ⟨hip, bmSet_not_in_process _ p c v n r w hip,
    bmCas_not_in_process _ p c v ov n r w hip, ?_⟩
  intro hok
  have hres : (send tr st).1.future_resolved = true := by
    rcases hsl : sendLoop tr st.batch with ⟨b', err, evs⟩
    simp only [send, hsl] at hok ⊢
    cases err with
    | some e => simp at hok
    | none =>
      by_cases hr : st.future_resolved
      · simp [hr] at hok
      · simp [hr]
  generalize hg : (send tr st).1 = st₁ at hres ⊢
  rcases hsl' : sendLoop tr' st₁.batch with ⟨b₂, err₂, evs₂⟩
  simp only [send, hsl']
  cases err₂ with
  | some e => simp
  | none => simp [hres]

/-- Closed instance of `batch_single_use`: a second `send` on a batch whose
first `send` succeeded raises. -/
theorem batch_single_use_witness :
    (send exTransportOk (send exTransportOk (BatchState.init Nat)).1).2.1 ≠ none :=
  (batch_single_use (BatchState.init Nat) exTransportOk exTransportOk ["p"] ["c"] none
    0 3 2 2).2.2.2 (by decide)

theorem bmSet_dup {α : Type} (st₁ : BatchState α) (p c : List String) (v' : Option α)
    (n' r' w' : Int) (hip₁ : st₁.in_process = true)
    (hl₁ : (lookup2 st₁ p c).isSome) :
    bmSet st₁ p c v' n' r' w' =
      (st₁, some (.assertionError ("Key can be added to batch only one time"))) := by
  obtain ⟨e₁, he⟩ := Option.isSome_iff_exists.mp hl₁
  obtain ⟨pb₁, hpb₁, he₁⟩ := (lookup2_eq_some_iff _ _ _ _).mp he
  have hpset : PartitionBatch.set pb₁ c v' =
      .error (.assertionError ("Key can be added to batch only one time")) := by
    rw [PartitionBatch.set, if_pos (by simp [he₁])]
  simp only [bmSet, dsetdefault, hpb₁, hpset]
  rw [if_neg (show ¬ st₁.in_process = false by simp [hip₁])]

theorem bmCas_dup {α : Type} (st₁ : BatchState α) (p c : List String) (v' : Option α)
    (ov n' r' w' : Int) (hip₁ : st₁.in_process = true)
    (hl₁ : (lookup2 st₁ p c).isSome) :
    bmCas st₁ p c v' ov n' r' w' =
      (st₁, some (.assertionError ("Key can be added to batch only one time"))) := by
  obtain ⟨e₁, he⟩ := Option.isSome_iff_exists.mp hl₁
  obtain ⟨pb₁, hpb₁, he₁⟩ := (lookup2_eq_some_iff _ _ _ _).mp he
  have hpcas : PartitionBatch.cas pb₁ c v' ov =
      .error (.assertionError ("Key can be added to batch only one time")) := by
    rw [PartitionBatch.cas, if_pos (by simp [he₁])]
  simp only [bmCas, dsetdefault, hpb₁, hpcas]
  rw [if_neg (show ¬ st₁.in_process = false by simp [hip₁])]

/-- C7.  Registering a clustering key that is already pending in the same
partition of a not-yet-sent batch fails at the second registration with the
`AssertionError` of `__assert_not_set`, leaves the batch state — and hence
the first registration's entry — unchanged, and involves no transport call
(registration functions take no transport argument; only `send` does). -/
theorem batch_duplicate_key_rejected {α : Type} (st : BatchState α) (p c : List String)
    (v v' : Option α) (ov : Int) (n r w n' r' w' : Int)
    (hip : st.in_process = true) (hl : lookup2 st p c = none) :
    (bmSet st p c v n r w).2 = none ∧
    lookup2 (bmSet st p c v n r w).1 p c = some ⟨v, none, 0⟩ ∧
    bmSet (bmSet st p c v n r w).1 p c v' n' r' w' =
      ((bmSet st p c v n r w).1,
        some (.assertionError ("Key can be added to batch only one time"))) ∧
    bmCas (bmSet st p c v n r w).1 p c v' ov n' r' w' =
      ((bmSet st p c v n r w).1,
        some (.assertionError ("Key can be added to batch only one time"))) ∧
    lookup2 (bmSet (bmSet st p c v n r w).1 p c v' n' r' w').1 p c = some ⟨v, none, 0⟩ := by
  obtain ⟨B1, B2, B3, B4, B5, B6, B7⟩ := bmSet_ok st p c v n r w hip hl
  have hl₁ : lookup2 (bmSet st p c v n r w).1 p c = some ⟨v, none, 0⟩ := by
    rw [B4, if_pos ⟨rfl, rfl⟩]
  have hip₁ : (bmSet st p c v n r w).1.in_process = true := B2.trans hip
  have hset := bmSet_dup (bmSet st p c v n r w).1 p c v' n' r' w' hip₁ (by simp [hl₁])
  have hcas := bmCas_dup (bmSet st p c v n r w).1 p c v' ov n' r' w' hip₁ (by simp [hl₁])
  refine ⟨B1, hl₁, hset, hcas, ?_⟩
  rw [hset]
  exact hl₁

/-- Closed instance of `batch_duplicate_key_rejected` on a fresh batch. -/
theorem batch_duplicate_key_rejected_witness :
    (bmSet (BatchState.init Nat) ["p"] ["c"] (some 1) 3 2 2).2 = none ∧
    bmSet (bmSet (BatchState.init Nat) ["p"] ["c"] (some 1) 3 2 2).1 ["p"] ["c"]
        (some 2) 3 2 2 =
      ((bmSet (BatchState.init Nat) ["p"] ["c"] (some 1) 3 2 2).1,
        some (.assertionError ("Key can be added to batch only one time"))) ∧
    lookup2 (bmSet (bmSet (BatchState.init Nat) ["p"] ["c"] (some 1) 3 2 2).1 ["p"] ["c"]
        (some 2) 3 2 2).1 ["p"] ["c"] = some ⟨some 1, none, 0⟩ :=
  ⟨(batch_duplicate_key_rejected (BatchState.init Nat) ["p"] ["c"] (some 1) (some 2)
      0 3 2 2 3 2 2 (by decide) (by decide)).1,
   (batch_duplicate_key_rejected (BatchState.init Nat) ["p"] ["c"] (some 1) (some 2)
      0 3 2 2 3 2 2 (by decide) (by decide)).2.2.1,
   (batch_duplicate_key_rejected (BatchState.init Nat) ["p"] ["c"] (some 1) (some 2)
      0 3 2 2 3 2 2 (by decide) (by decide)).2.2.2.2⟩

/-- C6.  A successful `Entry.set`/`Entry.cas` — direct or through a batch —
caches `new_value` and the newly assigned version and returns that version:
for the direct calls the cached and returned version is exactly the
`version` field of the transport's response body; for the batched calls it
is the version the batch assigned.  And `cas` with `old_version` omitted
behaves identically (against every transport) to `cas` called with the
entry's last-known cached version. -/
theorem entry_write_updates_cache {α : Type} (e : Entry α) (nv : Option α)
    (ov : Option Int) (tr : EntryTransport α) (vb : Int) :
    ((Entry.set e nv tr).2.1 = none →
      (Entry.set e nv tr).1.value = nv ∧
      (Entry.set e nv tr).1.version = (tr (setRequest e nv)).2.version ∧
      (Entry.set e nv tr).2.2 = some (tr (setRequest e nv)).2.version) ∧
    ((Entry.cas e nv ov tr).2.1 = none →
      (Entry.cas e nv ov tr).1.value = nv ∧
      (Entry.cas e nv ov tr).1.version = (tr (casRequest e nv ov)).2.version ∧
      (Entry.cas e nv ov tr).2.2 = some (tr (casRequest e nv ov)).2.version) ∧
    Entry.cas e nv none tr = Entry.cas e nv (some e.version) tr ∧
    ((Entry.setBatched e nv vb).1.value = nv ∧ (Entry.setBatched e nv vb).1.version = vb ∧
      (Entry.setBatched e nv vb).2 = vb) ∧
    ((Entry.casBatched e nv vb).1.value = nv ∧ (Entry.casBatched e nv vb).1.version = vb ∧
      (Entry.casBatched e nv vb).2 = vb) := by
  refine ⟨?_, ?_, rfl, ⟨rfl, rfl, rfl⟩, ⟨rfl, rfl, rfl⟩⟩
  · intro hok
    rcases htr : tr (setRequest e nv) with ⟨code, body⟩
    simp only [Entry.set, htr] at hok ⊢
    cases hre : raise_if_error code with
    | error err => simp [hre] at hok
    | ok u => simp [hre]
  · intro hok
    rcases htr : tr (casRequest e nv ov) with ⟨code, body⟩
    simp only [Entry.cas, htr] at hok ⊢
    cases hre : raise_if_error code with
    | error err => simp [hre] at hok
    | ok u => simp [hre]

/-- Closed instance of `entry_write_updates_cache`: a direct `set` against a
transport answering version 9 caches and returns 9 together with the new
value. -/
theorem entry_write_updates_cache_witness :
    (Entry.set exEntry (some 4) exETransportOk).1.value = some 4 ∧
    (Entry.set exEntry (some 4) exETransportOk).1.version = 9 ∧
    (Entry.set exEntry (some 4) exETransportOk).2.2 = some 9 :=
  (entry_write_updates_cache exEntry (some 4) none exETransportOk 0).1 (by decide)

/-- C8.  `Entry.get` and `Entry.listen` mutate only the cached version and
value: partition, clustering, replication parameters and transaction binding
are preserved by every call, and a call that raises (non-200 status) leaves
the whole entry — cached version and value included — unchanged. -/
theorem entry_get_listen_frame {α : Type} (e : Entry α) (tr : EntryTransport α)
    (wv tmo : Option Int) :
    (Entry.get e tr).1.partition = e.partition ∧
    (Entry.get e tr).1.clustering = e.clustering ∧
    (Entry.get e tr).1.n = e.n ∧
    (Entry.get e tr).1.r = e.r ∧
    (Entry.get e tr).1.w = e.w ∧
    (Entry.get e tr).1.transaction = e.transaction ∧
    ((Entry.get e tr).2.1 ≠ none → (Entry.get e tr).1 = e) ∧
    (Entry.listen e wv tmo tr).1.partition = e.partition ∧
    (Entry.listen e wv tmo tr).1.clustering = e.clustering ∧
    (Entry.listen e wv tmo tr).1.n = e.n ∧
    (Entry.listen e wv tmo tr).1.r = e.r ∧
    (Entry.listen e wv tmo tr).1.w = e.w ∧
    (Entry.listen e wv tmo tr).1.transaction = e.transaction ∧
    ((Entry.listen e wv tmo tr).2.1 ≠ none → (Entry.listen e wv tmo tr).1 = e) := by
  have hget : ∀ X : Prop, ((Entry.get e tr).1.partition = e.partition ∧
      (Entry.get e tr).1.clustering = e.clustering ∧
      (Entry.get e tr).1.n = e.n ∧
      (Entry.get e tr).1.r = e.r ∧
      (Entry.get e tr).1.w = e.w ∧
      (Entry.get e tr).1.transaction = e.transaction ∧
      ((Entry.get e tr).2.1 ≠ none → (Entry.get e tr).1 = e) → X) → X := by
    intro X hX
    apply hX
    rcases htr : tr (getRequest e) with ⟨code, body⟩
    simp only [Entry.get, htr]
    cases hre : raise_if_error code with
    | error err => exact ⟨rfl, rfl, rfl, rfl, rfl, rfl, fun _ => rfl⟩
    | ok u => exact ⟨rfl, rfl, rfl, rfl, rfl, rfl, fun h => absurd rfl h⟩
  have hlisten : (Entry.listen e wv tmo tr).1.partition = e.partition ∧
      (Entry.listen e wv tmo tr).1.clustering = e.clustering ∧
      (Entry.listen e wv tmo tr).1.n = e.n ∧
      (Entry.listen e wv tmo tr).1.r = e.r ∧
      (Entry.listen e wv tmo tr).1.w = e.w ∧
      (Entry.listen e wv tmo tr).1.transaction = e.transaction ∧
      ((Entry.listen e wv tmo tr).2.1 ≠ none → (Entry.listen e wv tmo tr).1 = e) := by
    rcases htr : tr (listenRequest e wv tmo) with ⟨code, body⟩
    simp only [Entry.listen, htr]
    cases hre : raise_if_error code with
    | error err => exact ⟨rfl, rfl, rfl, rfl, rfl, rfl, fun _ => rfl⟩
    | ok u => exact ⟨rfl, rfl, rfl, rfl, rfl, rfl, fun h => absurd rfl h⟩
  exact hget _ (fun hg =>
    ⟨hg.1, hg.2.1, hg.2.2.1, hg.2.2.2.1, hg.2.2.2.2.1, hg.2.2.2.2.2.1, hg.2.2.2.2.2.2,
     hlisten.1, hlisten.2.1, hlisten.2.2.1, hlisten.2.2.2.1, hlisten.2.2.2.2.1,
     hlisten.2.2.2.2.2.1, hlisten.2.2.2.2.2.2⟩)

/-- Closed instance of `entry_get_listen_frame`: a failing `get` and a
failing `listen` leave the example entry fully unchanged. -/
theorem entry_get_listen_frame_witness :
    (Entry.get exEntry exETransportFail).1 = exEntry ∧
    (Entry.listen exEntry (some 3) (some 10) exETransportFail).1 = exEntry :=
  ⟨(entry_get_listen_frame exEntry exETransportFail (some 3) (some 10)).2.2.2.2.2.2.1
      (by decide),
   (entry_get_listen_frame exEntry exETransportFail (some 3) (some 10)).2.2.2.2.2.2.2.2.2.2.2.2.2
      (by decide)⟩

theorem buildEntries_fields {α : Type} (partition : List String)
    (data : List (IndexItem α)) (entries : List (Entry α))
    (hq : buildEntries partition data = .ok entries) :
    ∀ ent ∈ entries, ent.version = 0 ∧ ent.n = 3 ∧ ent.r = 2 ∧ ent.w = 2 ∧
      ent.transaction = none ∧ ent.partition = partition ∧
      ∃ item ∈ data, ent.clustering = item.key ∧ ent.value = item.value := by
  induction data generalizing entries with
  | nil =>
    rw [buildEntries] at hq
    obtain rfl : ([] : List (Entry α)) = entries := by
      simpa using hq
    intro ent hent
    simp at hent
  | cons item rest ih =>
    rw [buildEntries] at hq
    cases hmk : mkEntry partition item.key 0 item.value 3 2 2 none with
    | error err => rw [hmk] at hq; exact absurd hq (by simp)
    | ok ent₀ =>
      rw [hmk] at hq
      cases hrest : buildEntries partition rest with
      | error err => rw [hrest] at hq; exact absurd hq (by simp)
      | ok tail =>
        rw [hrest] at hq
        obtain rfl : ent₀ :: tail = entries := by simpa using hq
        have hent₀ : ent₀ = ⟨partition, item.key, 0, item.value, 3, 2, 2, none⟩ := by
          rw [mkEntry] at hmk
          cases hck : check_key partition with
          | error err => rw [hck] at hmk; exact absurd hmk (by simp)
          | ok u =>
            rw [hck, show check_nrw 3 2 2 = .ok () from rfl] at hmk
            simpa using hmk.symm
        intro ent hent
        rcases List.mem_cons.mp hent with rfl | hmem
        · rw [hent₀]
          exact ⟨rfl, rfl, rfl, rfl, rfl, rfl, item, List.mem_cons_self _ _, rfl, rfl⟩
        · obtain ⟨h1, h2, h3, h4, h5, h6, it, hit, h7, h8⟩ := ih tail hrest ent hmem
          exact ⟨h1, h2, h3, h4, h5, h6, it, List.mem_cons_of_mem _ hit, h7, h8⟩

/-- C9.  Every `Entry` produced by `PartitionIndex.query` carries version 0,
replication parameters `n=3, r=2, w=2` and no transaction binding, has the
index's partition key, and takes only its clustering key and value from the
response. -/
theorem index_query_entry_fields {α : Type} (partition : List String) (code : Int)
    (data : List (IndexItem α)) (entries : List (Entry α))
    (hq : indexQuery partition code data = .ok entries) :
    ∀ ent ∈ entries, ent.version = 0 ∧ ent.n = 3 ∧ ent.r = 2 ∧ ent.w = 2 ∧
      ent.transaction = none ∧ ent.partition = partition ∧
      ∃ item ∈ data, ent.clustering = item.key ∧ ent.value = item.value := by
  rw [indexQuery] at hq
  cases hre : raise_if_error code with
  | error err => rw [hre] at hq; exact absurd hq (by simp)
  | ok u =>
    rw [hre] at hq
    exact buildEntries_fields partition data entries hq

/-- Closed instance of `index_query_entry_fields` at a one-element
response. -/
theorem index_query_entry_fields_witness :
    (⟨["p"], ["k"], 0, some 7, 3, 2, 2, none⟩ : Entry Nat).version = 0 ∧
    (⟨["p"], ["k"], 0, some 7, 3, 2, 2, none⟩ : Entry Nat).n = 3 ∧
    (⟨["p"], ["k"], 0, some 7, 3, 2, 2, none⟩ : Entry Nat).r = 2 ∧
    (⟨["p"], ["k"], 0, some 7, 3, 2, 2, none⟩ : Entry Nat).w = 2 ∧
    (⟨["p"], ["k"], 0, some 7, 3, 2, 2, none⟩ : Entry Nat).transaction = none ∧
    (⟨["p"], ["k"], 0, some 7, 3, 2, 2, none⟩ : Entry Nat).partition = ["p"] ∧
    ∃ item ∈ [(⟨["k"], some 7⟩ : IndexItem Nat)],
      (⟨["p"], ["k"], 0, some 7, 3, 2, 2, none⟩ : Entry Nat).clustering = item.key ∧
      (⟨["p"], ["k"], 0, some 7, 3, 2, 2, none⟩ : Entry Nat).value = item.value :=
  index_query_entry_fields ["p"] 200 [⟨["k"], some 7⟩]
    [⟨["p"], ["k"], 0, some 7, 3, 2, 2, none⟩] rfl
    ⟨["p"], ["k"], 0, some 7, 3, 2, 2, none⟩ (by decide)

/-! ## Injectivity of `quote` and `key_to_str` -/

theorem isSafe_facts (c : Nat) (h : isSafe c) : c < 128 ∧ c ≠ 37 ∧ c ≠ 58 := by
  unfold isSafe at h
  omega

theorem unhex_hexDig (n : Nat) (h : n < 16) : unhex (hexDig n) = some n := by
  unfold hexDig unhex
  split_ifs <;> first
  | (simp only [Option.some.injEq]; omega)
  | (exfalso; omega)

theorem hexDig_ne (n : Nat) : hexDig n ≠ 58 ∧ hexDig n ≠ 37 := by
  unfold hexDig
  split_ifs <;> omega

theorem utf8_lt (c : Nat) (h : c < 1114112) : ∀ b ∈ utf8 c, b < 256 := by
  unfold utf8
  split_ifs with h1 h2 h3 <;> intro b hb <;> simp at hb <;> omega

theorem ubytes_pct (b : Nat) (t : List Nat) (hb : b < 256) :
    ubytes (pct b ++ t) = (ubytes t).map (fun s => b :: s) := by
  have h1 : unhex (hexDig (b / 16)) = some (b / 16) := unhex_hexDig _ (by omega)
  have h2 : unhex (hexDig (b % 16)) = some (b % 16) := unhex_hexDig _ (by omega)
  show ubytes (37 :: hexDig (b / 16) :: hexDig (b % 16) :: t) = _
  rw [ubytes, if_pos rfl, ubytesPct, h1, h2]
  show (ubytes t).map (fun s => (b / 16 * 16 + b % 16) :: s) = _
  have hb16 : b / 16 * 16 + b % 16 = b := by omega
  rw [hb16]

theorem ubytes_pcts (bs : List Nat) (t : List Nat) (hb : ∀ b ∈ bs, b < 256) :
    ubytes (bs.flatMap pct ++ t) = (ubytes t).map (fun s => bs ++ s) := by
  induction bs with
  | nil =>
    simp only [List.flatMap_nil, List.nil_append]
    cases ubytes t <;> simp
  | cons b bs' ih =>
    rw [List.flatMap_cons, List.append_assoc,
      ubytes_pct b _ (hb b (List.mem_cons_self b bs')),
      ih (fun b' hb' => hb b' (List.mem_cons_of_mem _ hb'))]
    cases ubytes t <;> simp

theorem ubytes_quote (s : List Nat) (t : List Nat) (hv : ValidStr s) :
    ubytes (quote s ++ t) = (ubytes t).map (fun r => utf8encode s ++ r) := by
  induction s with
  | nil =>
    simp only [quote, List.flatMap_nil, List.nil_append, utf8encode]
    cases ubytes t <;> simp
  | cons c s' ih =>
    have hv' : ValidStr s' := fun x hx => hv x (List.mem_cons_of_mem _ hx)
    have hvc : ValidChar c := hv c (List.mem_cons_self c s')
    rw [quote, List.flatMap_cons, List.append_assoc]
    by_cases hsafe : isSafe c
    · obtain ⟨hclt, hc37, _⟩ := isSafe_facts c hsafe
      rw [show quoteChar c = [c] by rw [quoteChar, if_pos hsafe]]
      show ubytes (c :: (s'.flatMap quoteChar ++ t)) = _
      rw [ubytes, if_neg hc37, if_pos hsafe,
        show s'.flatMap quoteChar = quote s' from rfl, ih hv']
      cases ubytes t <;> simp [utf8encode, utf8, hclt]
    · rw [show quoteChar c = (utf8 c).flatMap pct by rw [quoteChar, if_neg hsafe],
        show s'.flatMap quoteChar = quote s' from rfl,
        ubytes_pcts (utf8 c) _ (utf8_lt c hvc.1), ih hv']
      cases ubytes t <;> simp [utf8encode]

theorem quote_no_colon (s : List Nat) : 58 ∉ quote s := by
  intro hmem
  rw [quote] at hmem
  obtain ⟨c, hc, hmem'⟩ := List.mem_flatMap.mp hmem
  rw [quoteChar] at hmem'
  by_cases hsafe : isSafe c
  · rw [if_pos hsafe] at hmem'
    rw [List.mem_singleton] at hmem'
    exact (isSafe_facts c hsafe).2.2 hmem'.symm
  · rw [if_neg hsafe] at hmem'
    obtain ⟨b, _, hmem''⟩ := List.mem_flatMap.mp hmem'
    simp only [pct] at hmem''
    rcases List.mem_cons.mp hmem'' with h | h
    · omega
    · rcases List.mem_cons.mp h with h' | h'
      · exact (hexDig_ne (b / 16)).1 h'.symm
      · rw [List.mem_singleton] at h'
        exact (hexDig_ne (b % 16)).1 h'.symm

theorem udecode_utf8 (c : Nat) (t : List Nat) (hc : c < 1114112) :
    udecode (utf8 c ++ t) = (udecode t).map (fun r => c :: r) := by
  rw [utf8]
  split_ifs with h1 h2 h3
  · show udecode (c :: t) = _
    rw [udecode, if_pos h1]
  · show udecode ((192 + c / 64) :: (128 + c % 64) :: t) = _
    have hA : ¬ (192 + c / 64 < 128) := by omega
    have hB : ¬ (192 + c / 64 < 192) := by omega
    have hC : 192 + c / 64 < 224 := by omega
    have hD : 128 ≤ 128 + c % 64 ∧ 128 + c % 64 < 192 := by omega
    rw [udecode, if_neg hA, if_neg hB, if_pos hC, udecodeTail2, if_pos hD]
    have hcc : (192 + c / 64 - 192) * 64 + (128 + c % 64 - 128) = c := by omega
    rw [hcc]
  · show udecode ((224 + c / 4096) :: (128 + c / 64 % 64) :: (128 + c % 64) :: t) = _
    have hA : ¬ (224 + c / 4096 < 128) := by omega
    have hB : ¬ (224 + c / 4096 < 192) := by omega
    have hC : ¬ (224 + c / 4096 < 224) := by omega
    have hD : 224 + c / 4096 < 240 := by omega
    have hE : (128 ≤ 128 + c / 64 % 64 ∧ 128 + c / 64 % 64 < 192) ∧
        (128 ≤ 128 + c % 64 ∧ 128 + c % 64 < 192) := by omega
    rw [udecode, if_neg hA, if_neg hB, if_neg hC, if_pos hD, udecodeTail3, if_pos hE]
    have hcc : (224 + c / 4096 - 224) * 4096 + (128 + c / 64 % 64 - 128) * 64 +
        (128 + c % 64 - 128) = c := by omega
    rw [hcc]
  · show udecode ((240 + c / 262144) :: (128 + c / 4096 % 64) ::
        (128 + c / 64 % 64) :: (128 + c % 64) :: t) = _
    have hA : ¬ (240 + c / 262144 < 128) := by omega
    have hB : ¬ (240 + c / 262144 < 192) := by omega
    have hC : ¬ (240 + c / 262144 < 224) := by omega
    have hD : ¬ (240 + c / 262144 < 240) := by omega
    have hE : (128 ≤ 128 + c / 4096 % 64 ∧ 128 + c / 4096 % 64 < 192) ∧
        (128 ≤ 128 + c / 64 % 64 ∧ 128 + c / 64 % 64 < 192) ∧
        (128 ≤ 128 + c % 64 ∧ 128 + c % 64 < 192) := by omega
    rw [udecode, if_neg hA, if_neg hB, if_neg hC, if_neg hD, udecodeTail4, if_pos hE]
    have hcc : (240 + c / 262144 - 240) * 262144 + (128 + c / 4096 % 64 - 128) * 4096 +
        (128 + c / 64 % 64 - 128) * 64 + (128 + c % 64 - 128) = c := by omega
    rw [hcc]

theorem udecode_utf8encode (s t : List Nat) (hv : ValidStr s) :
    udecode (utf8encode s ++ t) = (udecode t).map (fun r => s ++ r) := by
  induction s with
  | nil =>
    simp only [utf8encode, List.flatMap_nil, List.nil_append]
    cases udecode t <;> simp
  | cons c s' ih =>
    have hv' : ValidStr s' := fun x hx => hv x (List.mem_cons_of_mem _ hx)
    have hvc : ValidChar c := hv c (List.mem_cons_self c s')
    rw [utf8encode, List.flatMap_cons, List.append_assoc,
      udecode_utf8 c _ hvc.1,
      show s'.flatMap utf8 = utf8encode s' from rfl, ih hv']
    cases udecode t <;> simp

theorem quote_inj (s₁ s₂ : List Nat) (h₁ : ValidStr s₁) (h₂ : ValidStr s₂)
    (heq : quote s₁ = quote s₂) : s₁ = s₂ := by
  have e₁ : ubytes (quote s₁) = some (utf8encode s₁) := by
    have h := ubytes_quote s₁ [] h₁
    rw [List.append_nil] at h
    rw [h, show ubytes ([] : List Nat) = some [] by rw [ubytes], Option.map_some', List.append_nil]
  have e₂ : ubytes (quote s₂) = some (utf8encode s₂) := by
    have h := ubytes_quote s₂ [] h₂
    rw [List.append_nil] at h
    rw [h, show ubytes ([] : List Nat) = some [] by rw [ubytes], Option.map_some', List.append_nil]
  rw [heq, e₂] at e₁
  have henc : utf8encode s₂ = utf8encode s₁ := Option.some_injective _ e₁
  have d₁ : udecode (utf8encode s₁) = some s₁ := by
    have h := udecode_utf8encode s₁ [] h₁
    rw [List.append_nil] at h
    rw [h, show udecode ([] : List Nat) = some [] by rw [udecode], Option.map_some', List.append_nil]
  have d₂ : udecode (utf8encode s₂) = some s₂ := by
    have h := udecode_utf8encode s₂ [] h₂
    rw [List.append_nil] at h
    rw [h, show udecode ([] : List Nat) = some [] by rw [udecode], Option.map_some', List.append_nil]
  rw [henc, d₁] at d₂
  exact Option.some_injective _ d₂

theorem sep_head (x : List Nat) (r₁ : List Nat) (y : List Nat) (r₂ : List Nat)
    (hx : 58 ∉ x) (hy : 58 ∉ y)
    (hr₁ : r₁ = [] ∨ ∃ t, r₁ = 58 :: t) (hr₂ : r₂ = [] ∨ ∃ t, r₂ = 58 :: t)
    (heq : x ++ r₁ = y ++ r₂) : x = y ∧ r₁ = r₂ := by
  induction x generalizing y with
  | nil =>
    cases y with
    | nil => exact ⟨rfl, heq⟩
    | cons b y' =>
      exfalso
      rw [List.nil_append, List.cons_append] at heq
      rcases hr₁ with h | ⟨t, h⟩
      · subst h
        exact List.cons_ne_nil b (y' ++ r₂) heq.symm
      · subst h
        injection heq with h58 _
        subst h58
        exact hy (List.mem_cons_self 58 y')
  | cons a x' ih =>
    cases y with
    | nil =>
      exfalso
      rw [List.nil_append, List.cons_append] at heq
      rcases hr₂ with h | ⟨t, h⟩
      · subst h
        exact List.cons_ne_nil a (x' ++ r₁) heq
      · subst h
        injection heq with h58 _
        subst h58
        exact hx (List.mem_cons_self 58 x')
    | cons b y' =>
      rw [List.cons_append, List.cons_append] at heq
      injection heq with hab htail
      obtain ⟨hxy, hr⟩ := ih y' (fun h => hx (List.mem_cons_of_mem _ h))
        (fun h => hy (List.mem_cons_of_mem _ h)) htail
      exact ⟨by rw [hab, hxy], hr⟩

theorem joinColon_inj (xs ys : List (List Nat)) (hx : ∀ x ∈ xs, 58 ∉ x)
    (hy : ∀ y ∈ ys, 58 ∉ y) (hxe : xs ≠ []) (hye : ys ≠ [])
    (heq : joinColon xs = joinColon ys) : xs = ys := by
  induction xs generalizing ys with
  | nil => exact absurd rfl hxe
  | cons x xs' ih =>
    cases ys with
    | nil => exact absurd rfl hye
    | cons y ys' =>
      cases hxs' : xs' with
      | nil =>
        cases hys' : ys' with
        | nil =>
          subst hxs' hys'
          rw [show joinColon [x] = x from rfl, show joinColon [y] = y from rfl] at heq
          rw [heq]
        | cons y₂ ys'' =>
          exfalso
          subst hxs' hys'
          rw [show joinColon [x] = x from rfl,
            show joinColon (y :: y₂ :: ys'') = y ++ 58 :: joinColon (y₂ :: ys'') from rfl]
            at heq
          obtain ⟨_, hr⟩ := sep_head x [] y (58 :: joinColon (y₂ :: ys''))
            (hx x (List.mem_cons_self x [])) (hy y (List.mem_cons_self y _))
            (Or.inl rfl) (Or.inr ⟨_, rfl⟩) (by simpa using heq)
          exact List.cons_ne_nil 58 (joinColon (y₂ :: ys'')) hr.symm
      | cons x₂ xs'' =>
        cases hys' : ys' with
        | nil =>
          exfalso
          subst hxs' hys'
          rw [show joinColon (x :: x₂ :: xs'') = x ++ 58 :: joinColon (x₂ :: xs'') from rfl,
            show joinColon [y] = y from rfl] at heq
          obtain ⟨_, hr⟩ := sep_head x (58 :: joinColon (x₂ :: xs'')) y []
            (hx x (List.mem_cons_self x _)) (hy y (List.mem_cons_self y []))
            (Or.inr ⟨_, rfl⟩) (Or.inl rfl) (by simpa using heq)
          exact List.cons_ne_nil 58 (joinColon (x₂ :: xs'')) hr
        | cons y₂ ys'' =>
          subst hxs' hys'
          rw [show joinColon (x :: x₂ :: xs'') = x ++ 58 :: joinColon (x₂ :: xs'') from rfl,
            show joinColon (y :: y₂ :: ys'') = y ++ 58 :: joinColon (y₂ :: ys'') from rfl]
            at heq
          obtain ⟨hxy, hr⟩ := sep_head x (58 :: joinColon (x₂ :: xs'')) y
            (58 :: joinColon (y₂ :: ys''))
            (hx x (List.mem_cons_self x _)) (hy y (List.mem_cons_self y _))
            (Or.inr ⟨_, rfl⟩) (Or.inr ⟨_, rfl⟩) heq
          injection hr with _ hj
          have hrec := ih (y₂ :: ys'') (fun z hz => hx z (List.mem_cons_of_mem _ hz))
            (fun z hz => hy z (List.mem_cons_of_mem _ hz))
            (List.cons_ne_nil x₂ xs'') (List.cons_ne_nil y₂ ys'') hj
          rw [hxy, hrec]

theorem map_quote_inj (k₁ k₂ : List (List Nat)) (hv₁ : ∀ s ∈ k₁, ValidStr s)
    (hv₂ : ∀ s ∈ k₂, ValidStr s) (heq : k₁.map quote = k₂.map quote) : k₁ = k₂ := by
  induction k₁ generalizing k₂ with
  | nil =>
    cases k₂ with
    | nil => rfl
    | cons s₂ t₂ => simp at heq
  | cons s₁ t₁ ih =>
    cases k₂ with
    | nil => simp at heq
    | cons s₂ t₂ =>
      rw [List.map_cons, List.map_cons] at heq
      injection heq with hh ht
      rw [quote_inj s₁ s₂ (hv₁ s₁ (List.mem_cons_self _ _)) (hv₂ s₂ (List.mem_cons_self _ _)) hh,
        ih t₂ (fun s hs => hv₁ s (List.mem_cons_of_mem _ hs))
          (fun s hs => hv₂ s (List.mem_cons_of_mem _ hs)) ht]

/-- C10, counterexample.  `key_to_str` is not injective on all finite
sequences of string components: the empty key and the one-component key
whose component is the empty string both encode to the empty string
(`':'.join([]) == '' == ':'.join([quote('')])`). -/
theorem key_to_str_empty_collision :
    key_to_str [] = key_to_str [[]] ∧ ([] : List (List Nat)) ≠ [[]] :=
  ⟨rfl, by decide⟩

/-- C10 (amended).  On non-empty keys `key_to_str` is injective: for every
pair of distinct non-empty sequences of encodable string components
(code points below 0x110000, no lone surrogates — the domain on which
Python's `quote` is defined), the produced strings differ, because every
component is percent-encoded so that the `':'` separator (code point 58)
never occurs inside an encoded component, and percent-encoding itself is
injective. -/
theorem key_to_str_injective_nonempty (k₁ k₂ : List (List Nat))
    (h₁ : k₁ ≠ []) (h₂ : k₂ ≠ []) (hv₁ : ∀ s ∈ k₁, ValidStr s)
    (hv₂ : ∀ s ∈ k₂, ValidStr s) (hne : k₁ ≠ k₂) :
    key_to_str k₁ ≠ key_to_str k₂ := by
  intro heq
  apply hne
  rw [key_to_str, key_to_str] at heq
  have hmq := joinColon_inj (k₁.map quote) (k₂.map quote)
    (fun x hx => by
      obtain ⟨s, hs, hform⟩ := List.mem_map.mp hx
      rw [← hform]
      exact quote_no_colon s)
    (fun y hy => by
      obtain ⟨s, hs, hform⟩ := List.mem_map.mp hy
      rw [← hform]
      exact quote_no_colon s)
    (by simpa using h₁) (by simpa using h₂) heq
  exact map_quote_inj k₁ k₂ hv₁ hv₂ hmq

/-- Closed instance of `key_to_str_injective_nonempty` at the distinct
one-component keys `["a"]` and `["b"]`. -/
theorem key_to_str_injective_nonempty_witness :
    key_to_str [[97]] ≠ key_to_str [[98]] :=
  key_to_str_injective_nonempty [[97]] [[98]] (by decide) (by decide) (by decide)
    (by decide) (by decide)

end AStorage
